import Mathlib

/-!
Shallow embedding of the inline-property extraction engine of the
repository (src/src/core/inline_property.rs) together with proofs about
the claims of its specification.

Strings are modelled as lists of characters (abbrev Str); byte offsets of
the Rust code are recovered through the UTF-8 size of each character
(utf8Len).  Fallible operations of the source, namely the byte slice
performed inside InlinePropertyParser::is_datetime, are modelled with
Option: a result of none models a Rust panic.  Every parsing function is
translated from the source file; the regular expressions of the source
are translated into explicit scanners whose semantics (leftmost,
non-overlapping matching with greedy repetition) is documented at each
definition.
-/

namespace NotNative

/-- A Rust string, modelled as its list of characters. -/
abbrev Str := List Char

/-- The UTF-8 byte length of a string, as Rust str::len computes it. -/
def utf8Len (s : Str) : Nat := (s.map Char.utf8Size).sum

/-- Unicode letter class (regex p-L).  The model covers Basic Latin,
the Latin-1 supplement and Latin Extended-A, the ranges exercised by the
repository (identifiers such as anio or titulo with accented letters);
characters beyond U+017F behave as non-letters in this model. -/
def isUnicodeLetter (c : Char) : Bool :=
  let n := c.toNat
  decide ((65 ≤ n ∧ n ≤ 90) ∨ (97 ≤ n ∧ n ≤ 122) ∨ n = 0xAA ∨ n = 0xB5 ∨ n = 0xBA ∨
    (0xC0 ≤ n ∧ n ≤ 0xD6) ∨ (0xD8 ≤ n ∧ n ≤ 0xF6) ∨ (0xF8 ≤ n ∧ n ≤ 0x17F))

/-- Unicode number class (regex p-N), modelled over the ASCII digits,
the only numeric characters the repository exercises. -/
def isUnicodeNumber (c : Char) : Bool :=
  decide (48 ≤ c.toNat ∧ c.toNat ≤ 57)

/-- Identifier-continuation class of the key pattern: letters, numbers or
underscore. -/
def isIdentChar (c : Char) : Bool :=
  isUnicodeLetter c || isUnicodeNumber c || decide (c = '_')

/-- Unicode White_Space property: the class matched by the regex class
backslash-s and by Rust char::is_whitespace. -/
def isWsChar (c : Char) : Bool :=
  let n := c.toNat
  decide ((9 ≤ n ∧ n ≤ 13) ∨ n = 32 ∨ n = 0x85 ∨ n = 0xA0 ∨ n = 0x1680 ∨
    (0x2000 ≤ n ∧ n ≤ 0x200A) ∨ n = 0x2028 ∨ n = 0x2029 ∨ n = 0x202F ∨
    n = 0x205F ∨ n = 0x3000)

/-- ASCII digit test (Rust char::is_ascii_digit). -/
def isAsciiDigit (c : Char) : Bool :=
  decide (48 ≤ c.toNat ∧ c.toNat ≤ 57)

/-- Split a string at every occurrence of a character, auxiliary form
returning the first field and the remaining fields
(Rust str::split yields one field more than the number of separators). -/
def splitCharAux (c : Char) : Str → Str × List Str
  | [] => ([], [])
  | x :: rest =>
    let r := splitCharAux c rest
    if x = c then ([], r.1 :: r.2) else (x :: r.1, r.2)

/-- Rust str::split on a single character. -/
def splitChar (c : Char) (s : Str) : List Str :=
  (splitCharAux c s).1 :: (splitCharAux c s).2

/-- Split a string into its maximal prefix of characters satisfying p and
the remainder. -/
def takeWhileSplit (p : Char → Bool) : Str → Str × Str
  | [] => ([], [])
  | c :: rest =>
    if p c then
      let r := takeWhileSplit p rest
      (c :: r.1, r.2)
    else ([], c :: rest)

/-- Rust str::trim: remove Unicode whitespace from both ends. -/
def trim (s : Str) : Str :=
  ((s.dropWhile isWsChar).reverse.dropWhile isWsChar).reverse

/-- Rust str::split_whitespace: whitespace-separated tokens, with empty
tokens dropped.  The accumulator holds the current token reversed. -/
def splitWsAux : Str → Str → List Str
  | [], acc => if acc = [] then [] else [acc.reverse]
  | c :: rest, acc =>
    if isWsChar c then
      if acc = [] then splitWsAux rest [] else acc.reverse :: splitWsAux rest []
    else splitWsAux rest (c :: acc)

/-- Rust str::split_whitespace. -/
def splitWs (s : Str) : List Str := splitWsAux s []

/-- Rust str::rfind of a character: index of its last occurrence.  The
source works with byte indices; every index it uses lies on a character
boundary, so the character index used here is order-isomorphic to it and
the arithmetic performed on it by the source is preserved. -/
def lastIdxOf (c : Char) : Str → Option Nat
  | [] => none
  | x :: rest =>
    match lastIdxOf c rest with
    | some j => some (j + 1)
    | none => if x = c then some 0 else none

/-- Rust byte slicing from the left: the characters of s occupying
exactly the first n bytes, or none when n is not a character boundary
(which models the panic of a Rust byte-slice) or exceeds the length. -/
def byteTake? : Str → Nat → Option Str
  | _, 0 => some []
  | [], _ => none
  | c :: rest, n =>
    if c.utf8Size ≤ n then (byteTake? rest (n - c.utf8Size)).map (c :: ·)
    else none

/-- Rust byte slicing from the right: the characters of s after its first
n bytes, or none when n is not a character boundary or exceeds the
length. -/
def byteDrop? : Str → Nat → Option Str
  | s, 0 => some s
  | [], _ => none
  | c :: rest, n =>
    if c.utf8Size ≤ n then byteDrop? rest (n - c.utf8Size)
    else none

/-- The internal sentinel the source substitutes for an escaped comma:
the string made of NUL, the letters ESCAPED_COMMA, and NUL. -/
def sentinel : Str :=
  '\x00' :: 'E' :: 'S' :: 'C' :: 'A' :: 'P' :: 'E' :: 'D' :: '_' ::
  'C' :: 'O' :: 'M' :: 'M' :: 'A' :: '\x00' :: []

/-- inner.replace of the two-character sequence backslash comma by the
sentinel (leftmost, non-overlapping, as Rust str::replace). -/
def substEsc : Str → Str
  | '\\' :: ',' :: rest => sentinel ++ substEsc rest
  | c :: rest => c :: substEsc rest
  | [] => []

/-- s.replace of the sentinel by a comma (leftmost, non-overlapping, as
Rust str::replace); restores escaped commas for display. -/
def restoreCommas : Str → Str
  | '\x00' :: 'E' :: 'S' :: 'C' :: 'A' :: 'P' :: 'E' :: 'D' :: '_' ::
    'C' :: 'O' :: 'M' :: 'M' :: 'A' :: '\x00' :: rest => ',' :: restoreCommas rest
  | c :: rest => c :: restoreCommas rest
  | [] => []

/-- Rust str::eq_ignore_ascii_case: equal length and equal characters up
to ASCII case folding. -/
def asciiLower (c : Char) : Char :=
  if 65 ≤ c.toNat ∧ c.toNat ≤ 90 then Char.ofNat (c.toNat + 32) else c

/-- Rust str::eq_ignore_ascii_case on the character lists. -/
def eqIgnoreAsciiCase : Str → Str → Bool
  | [], [] => true
  | a :: as_, b :: bs => decide (asciiLower a = asciiLower b) && eqIgnoreAsciiCase as_ bs
  | _, _ => false

/-- The value of a parsed 64-bit float.  The numeric payload of a finite
value is modelled as the exact decimal rational denoted by the literal;
IEEE rounding and overflow of huge literals to infinity are not modelled
(no claim depends on them, only on which strings the grammar accepts and
on small integer values). -/
inductive FloatVal where
  | finite (q : ℚ)
  | inf (neg : Bool)
  | nan
deriving Repr, DecidableEq

/-- Digits to a natural number, most significant first. -/
def digitsToNat (s : Str) : Nat :=
  s.foldl (fun acc c => 10 * acc + (c.toNat - 48)) 0

/-- The decimal grammar accepted by Rust f64::from_str after the sign:
digits, an optional point with digits (at least one digit in total), and
an optional exponent. -/
def parseDecimal (s : Str) (neg : Bool) : Option FloatVal :=
  let ip := takeWhileSplit isAsciiDigit s
  let intPart := ip.1
  let afterInt := ip.2
  let fp : Option Str × Str :=
    match afterInt with
    | '.' :: r =>
      let fr := takeWhileSplit isAsciiDigit r
      (some fr.1, fr.2)
    | _ => (none, afterInt)
  let fracPart := fp.1
  let afterFrac := fp.2
  if intPart = [] ∧ (fracPart = none ∨ fracPart = some []) then none
  else
    let fracDigits := fracPart.getD []
    let mantNum : Int :=
      Int.ofNat (digitsToNat intPart * 10 ^ fracDigits.length + digitsToNat fracDigits)
    let signedNum : Int := if neg then -mantNum else mantNum
    match afterFrac with
    | [] => some (.finite (mkRat signedNum (10 ^ fracDigits.length)))
    | e :: r =>
      if e = 'e' ∨ e = 'E' then
        let sr : Bool × Str :=
          match r with
          | '+' :: r2 => (false, r2)
          | '-' :: r2 => (true, r2)
          | r2 => (false, r2)
        let ed := takeWhileSplit isAsciiDigit sr.2
        if ed.1 = [] ∨ ed.2 ≠ [] then none
        else
          let ex := digitsToNat ed.1
          some (.finite
            (if sr.1 then mkRat signedNum (10 ^ fracDigits.length * 10 ^ ex)
             else mkRat (signedNum * Int.ofNat (10 ^ ex)) (10 ^ fracDigits.length)))
      else none

/-- Rust f64::from_str: optional sign, then a case-insensitive inf,
infinity or nan, or a decimal number.  The whole string must be
consumed. -/
def parseF64? (s : Str) : Option FloatVal :=
  let sr : Bool × Str :=
    match s with
    | '+' :: r => (false, r)
    | '-' :: r => (true, r)
    | r => (false, r)
  let neg := sr.1
  let rest := sr.2
  if eqIgnoreAsciiCase rest ("inf").data ∨ eqIgnoreAsciiCase rest ("infinity").data then
    some (.inf neg)
  else if eqIgnoreAsciiCase rest ("nan").data then some .nan
  else parseDecimal rest neg

/-- The closed set of typed values.  Modelled from the spec: the
PropertyValue enumeration lives in src/core/property.rs, which is not
among the provided source files; its variants are taken from section 3 of
the specification and from the constructor uses in inline_property.rs. -/
inductive PropertyValue where
  | Text (s : Str)
  | Number (v : FloatVal)
  | Checkbox (b : Bool)
  | Date (s : Str)
  | DateTime (s : Str)
  | Link (name : Str)
  | Links (names : List Str)
  | List (items : List Str)
  | Tags (tags : List Str)
deriving Repr, DecidableEq

/-- An inline property extracted from the content
(struct InlineProperty of the source). -/
structure InlineProperty where
  key : Str
  value : PropertyValue
  raw_value : Str
  line_number : Nat
  char_start : Nat
  char_end : Nat
  linked_note : Option Str
  group_id : Option Nat
  hidden : Bool
deriving Repr, DecidableEq

/-- InlinePropertyParser::is_date: ten bytes, three dash-separated parts
of byte lengths four, two and two, all characters ASCII digits. -/
def is_date (s : Str) : Bool :=
  if utf8Len s ≠ 10 then false
  else
    match splitChar '-' s with
    | [a, b, c] =>
      decide (utf8Len a = 4) && decide (utf8Len b = 2) && decide (utf8Len c = 2) &&
      a.all isAsciiDigit && b.all isAsciiDigit && c.all isAsciiDigit
    | _ => false

/-- InlinePropertyParser::is_datetime.  The source slices the first ten
bytes of s; that byte slice panics when byte ten is not a character
boundary, which this model returns as none. -/
def is_datetime? (s : Str) : Option Bool :=
  if s.contains 'T' && decide (19 ≤ utf8Len s) then (byteTake? s 10).map is_date
  else some false

/-- Strip every leading occurrence of a character
(Rust str::trim_start_matches with a char pattern). -/
def trimStartMatches (c : Char) (s : Str) : Str :=
  s.dropWhile (fun x => decide (x = c))

/-- InlinePropertyParser::parse_value: the type-inference cascade.  The
result is none exactly when the source would panic (inside is_datetime).
The second component is the linked_note field. -/
def parse_value (raw : Str) : Option (PropertyValue × Option Str) :=
  let trimmed := trim raw
  if trimmed.head? = some '@' then
    let name := restoreCommas (trimmed.drop 1)
    some (.Link name, some name)
  else if eqIgnoreAsciiCase trimmed ("true").data then some (.Checkbox true, none)
  else if eqIgnoreAsciiCase trimmed ("false").data then some (.Checkbox false, none)
  else
    match if ¬ trimmed.contains ',' then parseF64? (restoreCommas trimmed) else none with
    | some v => some (.Number v, none)
    | none =>
      if is_date trimmed then some (.Date trimmed, none)
      else
        match is_datetime? trimmed with
        | none => none
        | some true => some (.DateTime trimmed, none)
        | some false =>
          let fallback : PropertyValue :=
            if trimmed.head? = some '#' && (splitWs trimmed).all (fun w => w.head? = some '#') then
              .Tags ((splitWs trimmed).map (trimStartMatches '#'))
            else .Text (restoreCommas trimmed)
          if trimmed.contains ',' then
            let items := ((splitChar ',' trimmed).map trim).filter (fun x => ¬ x.isEmpty)
            if ¬ items.isEmpty then
              if items.all (fun x => x.head? = some '#') then
                some (.Tags (items.map (trimStartMatches '#')), none)
              else if items.all (fun x => x.head? = some '@') then
                some (.Links (items.map (trimStartMatches '@')), none)
              else some (.List items, none)
            else some (fallback, none)
          else some (fallback, none)

/-- One match of the key pattern
letter, ident-continuations, whitespace, two or three colons, whitespace
(PROPERTY_PAIR_REGEX) inside a scanned string: its start index, the key
(capture group one), whether the separator was the triple colon (capture
group two), and the index just past the whole match.  Indices are
character indices; every byte index the source computes on these matches
lies on a character boundary, so the two index families are
order-isomorphic and the source arithmetic is preserved. -/
structure PairMatch where
  start : Nat
  key : Str
  sep3 : Bool
  stop : Nat
deriving Repr, DecidableEq

/-- Attempt a match of PROPERTY_PAIR_REGEX anchored at the head of s.
The pattern has no viable backtracking: the key is the maximal run of
identifier characters starting with a letter, the inner whitespace run is
maximal, then two colons must follow, a third colon is taken greedily,
and the trailing whitespace run is maximal.  Returns the key, whether the
separator was a triple colon, and the remainder after the match. -/
def matchPairAt (s : Str) : Option (Str × Bool × Str) :=
  match s with
  | [] => none
  | c :: _ =>
    if isUnicodeLetter c then
      match (takeWhileSplit isWsChar (takeWhileSplit isIdentChar s).2).2 with
      | ':' :: ':' :: ':' :: r4 =>
        some ((takeWhileSplit isIdentChar s).1, true, (takeWhileSplit isWsChar r4).2)
      | ':' :: ':' :: r3 =>
        some ((takeWhileSplit isIdentChar s).1, false, (takeWhileSplit isWsChar r3).2)
      | _ => none
    else none

/-- PROPERTY_PAIR_REGEX.find_iter: leftmost, non-overlapping matches.
After a failed attempt the scan advances one character; after a match it
resumes at the match end.  The fuel argument bounds the recursion and is
always instantiated with the length of the scanned string, which the
adequacy lemmas below show to be sufficient. -/
def findPairsF : Nat → Str → Nat → List PairMatch
  | 0, _, _ => []
  | _, [], _ => []
  | fuel + 1, c :: rest, pos =>
    match matchPairAt (c :: rest) with
    | some (key, sep3, after) =>
      let consumed := (c :: rest).length - after.length
      ⟨pos, key, sep3, pos + consumed⟩ :: findPairsF fuel after (pos + consumed)
    | none => findPairsF fuel rest (pos + 1)

/-- All matches of PROPERTY_PAIR_REGEX in s, with indices counted from
pos. -/
def findPairs (s : Str) (pos : Nat) : List PairMatch :=
  findPairsF s.length s pos

/-- The slice of s between character indices a (inclusive) and b
(exclusive). -/
def charSlice (s : Str) (a b : Nat) : Str := (s.drop a).take (b - a)

/-- Format a bracketed visible property: the string made of an opening
bracket, the key, two colons, the value and a closing bracket. -/
def fmtProp (key value : Str) : Str :=
  '[' :: (key ++ ':' :: ':' :: (value ++ [']']))

/-- Build one InlineProperty record as the source constructs it inside
parse_bracket_content; the group id starts as none and is assigned later
in parse. -/
def mkProp (key : Str) (v : PropertyValue) (rawv : Str) (line cs ce : Nat)
    (lnk : Option Str) (hidden : Bool) : InlineProperty :=
  ⟨key, v, rawv, line, cs, ce, lnk, none, hidden⟩

/-- The end of the value of a grouped match m followed by a match m2:
the index of the last comma of escaped found between the end of m and
the start of m2 (str::rfind on that slice), or the start of m2 when no
comma intervenes. -/
def groupValueEnd (escaped : Str) (m m2 : PairMatch) : Nat :=
  match lastIdxOf ',' (charSlice escaped m.stop m2.start) with
  | some j => m.stop + j
  | none => m2.start

/-- The raw (still trimmed, sentinel-bearing) value of a grouped match m
whose successor is m2. -/
def groupValue (escaped : Str) (m m2 : PairMatch) : Str :=
  trim (charSlice escaped m.stop (groupValueEnd escaped m m2))

/-- The loop of the grouped branch of parse_bracket_content: for every
match the value runs from the match end to the last comma found before
the next match (or to the next match start when no comma intervenes), and
for the last match to the end of the interior.  Re-running the pair regex
on the suffix of escaped starting at a recorded match start, as the
source does, reproduces exactly that match, so the recorded key and
separator are used directly.  Returns none when parse_value panics. -/
def multiLoop (escaped : Str) (line cs ce : Nat) : List PairMatch → Option (List InlineProperty)
  | [] => some []
  | [m] =>
    match parse_value (trim (escaped.drop m.stop)) with
    | none => none
    | some vl =>
      some [mkProp m.key vl.1 (restoreCommas (trim (escaped.drop m.stop))) line cs ce vl.2 m.sep3]
  | m :: m2 :: rest =>
    match parse_value (groupValue escaped m m2) with
    | none => none
    | some vl =>
      (multiLoop escaped line cs ce (m2 :: rest)).map
        (mkProp m.key vl.1 (restoreCommas (groupValue escaped m m2)) line cs ce vl.2 m.sep3 :: ·)

/-- InlinePropertyParser::parse_bracket_content.  First the pair pattern
is tested on the raw interior; then escaped commas are replaced by the
sentinel and all pair matches are collected on the substituted interior.
One match yields a single property from the remainder of the interior;
several matches take the grouped branch.  none models a panic inside
parse_value. -/
def parse_bracket_content (inner : Str) (line cs ce : Nat) : Option (List InlineProperty) :=
  if findPairs inner 0 = [] then some []
  else
    match findPairs (substEsc inner) 0 with
    | [] => some []
    | [m] =>
      match parse_value (trim ((substEsc inner).drop m.stop)) with
      | none => none
      | some vl =>
        some [mkProp m.key vl.1 (restoreCommas (trim ((substEsc inner).drop m.stop)))
          line cs ce vl.2 m.sep3]
    | m :: m2 :: rest => multiLoop (substEsc inner) line cs ce (m :: m2 :: rest)

/-- A bracket span found by the scanner: byte start of the opening
bracket, interior characters, byte end just past the closing bracket. -/
abbrev Span := Nat × Str × Nat

/-- The scan loop of INLINE_PROPERTY_REGEX, the pattern
opening bracket, one or more non-closing-bracket characters, closing
bracket, with leftmost non-overlapping matching: a match begins at an
opening bracket and its interior extends to the first closing bracket;
an attempt at an opening bracket immediately followed by a closing
bracket fails and the scan resumes at the next character, which is
exactly what this state machine does by discarding the empty interior.
The state carries the byte position and, when a candidate opening
bracket has been seen, its start position and the interior accumulated so
far. -/
def scanB : Str → Nat → Option (Nat × Str) → List Span
  | [], _, _ => []
  | c :: rest, pos, none =>
    if c = '[' then scanB rest (pos + 1) (some (pos, []))
    else scanB rest (pos + c.utf8Size) none
  | c :: rest, pos, some st =>
    if c = ']' then
      if st.2 = [] then scanB rest (pos + 1) none
      else (st.1, st.2, pos + 1) :: scanB rest (pos + 1) none
    else scanB rest (pos + c.utf8Size) (some (st.1, st.2 ++ [c]))

/-- All bracket spans of the content, in document order, with byte
offsets. -/
def bracketSpans (content : Str) : List Span := scanB content 0 none

/-- The byte offsets one past every newline of the content
(content.match_indices of the newline, each index plus one). -/
def newlineOffsets : Str → Nat → List Nat
  | [], _ => []
  | c :: rest, pos =>
    if c = '\n' then (pos + 1) :: newlineOffsets rest (pos + 1)
    else newlineOffsets rest (pos + c.utf8Size)

/-- The line-start offsets: position zero followed by one past every
newline. -/
def lineOffsets (content : Str) : List Nat := 0 :: newlineOffsets content 0

/-- Iterator position of the first offset strictly greater than cs, or
the number of offsets when none is (the line_number computation of
parse). -/
def lineNumberAt : List Nat → Nat → Nat
  | [], _ => 0
  | o :: rest, cs => if cs < o then 0 else lineNumberAt rest cs + 1

/-- The span loop of InlinePropertyParser::parse: each span is parsed,
empty results are dropped, and a span yielding more than one property
increments the group counter once and stamps that value on each of its
properties. -/
def parseSpans (offs : List Nat) (g : Nat) : List Span → Option (List InlineProperty)
  | [] => some []
  | (cs, inner, ce) :: rest =>
    match parse_bracket_content inner (lineNumberAt offs cs) cs ce with
    | none => none
    | some parsed =>
      if parsed.isEmpty then parseSpans offs g rest
      else
        (parseSpans offs (if 1 < parsed.length then g + 1 else g) rest).map
          (fun tail =>
            parsed.map
              (fun p => { p with group_id := if 1 < parsed.length then some (g + 1) else none })
              ++ tail)

/-- InlinePropertyParser::parse.  none models a panic of the source. -/
def parse (content : Str) : Option (List InlineProperty) :=
  parseSpans (lineOffsets content) 0 (bracketSpans content)

/-- The span loop of InlinePropertyParser::parse with the group-id
bookkeeping left out: each bracket span whose interior parses to a
nonempty property list is paired with that list, in document order;
spans whose interior yields nothing are dropped, and a panic inside a
span propagates as none, exactly as in parseSpans. -/
def spanYields (offs : List Nat) : List Span → Option (List (Span × List InlineProperty))
  | [] => some []
  | (cs, inner, ce) :: rest =>
    match parse_bracket_content inner (lineNumberAt offs cs) cs ce with
    | none => none
    | some parsed =>
      if parsed.isEmpty then spanYields offs rest
      else (spanYields offs rest).map (((cs, inner, ce), parsed) :: ·)

/-- InlinePropertyParser::replace_property: the content before
char_start, then the rebuilt visible span, then the content from
char_end.  The two byte slices are modelled with the partial byte
operations. -/
def replace_property (content : Str) (p : InlineProperty) (newValue : Str) : Option Str := do
  let pre ← byteTake? content p.char_start
  let post ← byteDrop? content p.char_end
  pure (pre ++ fmtProp p.key newValue ++ post)

/-- Strip one trailing carriage return (the per-line treatment of Rust
str::lines). -/
def stripCR (l : Str) : Str :=
  if l.getLast? = some '\r' then l.dropLast else l

/-- Strip one trailing carriage return from every field except the last:
Rust str::lines removes a carriage return only when it strips the
newline that followed it, so the final field (which has no trailing
newline) keeps a trailing carriage return. -/
def stripCRlines : List Str → List Str
  | [] => []
  | [l] => [l]
  | l :: rest => stripCR l :: stripCRlines rest

/-- Rust str::lines: split on newlines; when the content ends with a
newline the final empty field is dropped and every remaining field had
its newline (and a carriage return before it) stripped; otherwise the
final field keeps any trailing carriage return since no newline followed
it. -/
def rustLines (s : Str) : List Str :=
  if (splitChar '\n' s).getLast? = some [] then ((splitChar '\n' s).dropLast).map stripCR
  else stripCRlines (splitChar '\n' s)

/-- The rebuild loop of insert_property: emit each line, append the
insertion after line number i+1 when it equals the requested line, and
emit a newline after every line but the last (the source guard
i < lines.len() - 1 holds exactly off the last iteration). -/
def rebuildLines (line : Nat) (ins : Str) : Nat → List Str → Str
  | _, [] => []
  | i, [l] => l ++ (if i + 1 = line then ins else [])
  | i, l :: rest =>
    l ++ (if i + 1 = line then ins else []) ++ '\n' :: rebuildLines line ins (i + 1) rest

/-- The inserted text of insert_property: a space and the bracketed
visible property. -/
def insFmt (key value : Str) : Str := ' ' :: fmtProp key value

/-- InlinePropertyParser::insert_property. -/
def insert_property (content : Str) (line : Nat) (key value : Str) : Str :=
  rebuildLines line (insFmt key value) 0 (rustLines content)

/-!  Claim theorems. -/

/-- Discriminator for the Number variant, used to state that a value is
never classified as a number. -/
def isNumber : PropertyValue → Bool
  | .Number _ => true
  | _ => false

/-- C1: the specification claims that parse is total over all valid
UTF-8 input and never raises an error.  The code violates this: on the
valid UTF-8 content below, the value reaching is_datetime contains a T,
has byte length at least nineteen, and its tenth byte falls inside a
two-byte character, so the byte slice of its first ten bytes panics.
In the embedding the panic is the none result. -/
theorem parse_panics_inside_is_datetime :
    parse ("[x::Táááááááááá]").data = none ∧
    is_datetime? ("Táááááááááá").data = none := by
  exact ⟨by decide, by decide⟩

/-- C7: in the grouped branch the value of each match runs from the end
of its separator to the last comma before the next match, or to the end
of the interior for the last match.  First conjunct: the documented
example yields three properties with the claimed values and one shared
group id.  Second conjunct: the characters between the last comma and
the next key (here the text xx) are captured by neither value. -/
theorem grouped_value_boundaries :
    parse ("Referencia: [autor::Cervantes, libro::Quijote, año::1605]").data =
      some [⟨("autor").data, .Text ("Cervantes").data, ("Cervantes").data, 1, 12, 58, none, some 1, false⟩,
            ⟨("libro").data, .Text ("Quijote").data, ("Quijote").data, 1, 12, 58, none, some 1, false⟩,
            ⟨("año").data, .Number (.finite 1605), ("1605").data, 1, 12, 58, none, some 1, false⟩] ∧
    parse ("[a::1, xx b::2]").data =
      some [⟨('a' :: []), .Number (.finite 1), ('1' :: []), 1, 0, 15, none, some 1, false⟩,
            ⟨('b' :: []), .Number (.finite 2), ('2' :: []), 1, 0, 15, none, some 1, false⟩] := by
  exact ⟨by decide, by decide⟩

/-- C9, counterexample: the claim states that the sentinel substituted
for an escaped comma is restored to a literal comma in the produced
value.  In the list branch it is not: the first item of the produced
List value below still contains the sentinel characters instead of a
comma, while raw_value is restored. -/
theorem sentinel_not_restored_in_list_value :
    parse ("[x::a\\,b, c]").data =
      some [⟨('x' :: []), .List [("a\x00ESCAPED_COMMA\x00b").data, ('c' :: [])],
             ("a,b, c").data, 1, 0, 12, none, none, false⟩] ∧
    ("a\x00ESCAPED_COMMA\x00b").data ≠ ("a,b").data := by
  exact ⟨by decide, by decide⟩

/-- C9, amended: the escaped comma is substituted with the sentinel
before pair scanning, so it never acts as a value separator, and it is
restored to a literal comma in raw_value and in a produced Text value;
the documented example yields exactly one property with no group id and
the Text value with the comma restored. -/
theorem escaped_comma_single_property :
    parse ("[titulo::Cien años de soledad\\, novela]").data =
      some [⟨("titulo").data, .Text ("Cien años de soledad, novela").data,
             ("Cien años de soledad, novela").data, 1, 0, 40, none, none, false⟩] := by
  decide

/-- C10: marker stripping is asymmetric at the list and relation
boundary.  A comma-separated Tags value strips every leading hash of
each item, a whitespace-separated inline Tags value does the same, while
a single relation strips exactly one leading at-sign, so a double
at-sign survives into the link name and linked_note. -/
theorem marker_stripping_asymmetry :
    parse ("[t::##a,#b]").data =
      some [⟨('t' :: []), .Tags [('a' :: []), ('b' :: [])], ("##a,#b").data,
             1, 0, 11, none, none, false⟩] ∧
    parse ("[t::##a #b]").data =
      some [⟨('t' :: []), .Tags [('a' :: []), ('b' :: [])], ("##a #b").data,
             1, 0, 11, none, none, false⟩] ∧
    parse ("[r::@@X]").data =
      some [⟨('r' :: []), .Link ('@' :: 'X' :: []), ("@@X").data,
             1, 0, 8, some ('@' :: 'X' :: []), none, false⟩] := by
  exact ⟨by decide, by decide, by decide⟩

theorem multiLoop_fields (escaped : Str) (line cs ce : Nat) :
    ∀ pairs parsed, multiLoop escaped line cs ce pairs = some parsed →
      ∀ q ∈ parsed, q.line_number = line ∧ q.char_start = cs ∧ q.char_end = ce ∧
        q.group_id = none := by
  intro pairs
  induction pairs with
  | nil => intro parsed h q hq; cases h; simp at hq
  | cons m tail ih =>
    intro parsed h q hq
    cases tail with
    | nil =>
      cases hpv : parse_value (trim (escaped.drop m.stop)) with
      | none => rw [multiLoop, hpv] at h; exact Option.noConfusion h
      | some vl =>
        rw [multiLoop, hpv] at h
        obtain rfl := Option.some.inj h
        simp at hq
        subst hq
        exact ⟨rfl, rfl, rfl, rfl⟩
    | cons m2 rest =>
      cases hpv : parse_value (groupValue escaped m m2) with
      | none => rw [multiLoop, hpv] at h; exact Option.noConfusion h
      | some vl =>
        rw [multiLoop, hpv] at h
        simp only [Option.map_eq_some'] at h
        obtain ⟨tail2, htail, rfl⟩ := h
        rcases List.mem_cons.mp hq with rfl | hq2
        · exact ⟨rfl, rfl, rfl, rfl⟩
        · exact ih tail2 htail q hq2

theorem pbc_fields (inner : Str) (line cs ce : Nat) (parsed : List InlineProperty)
    (h : parse_bracket_content inner line cs ce = some parsed) :
    ∀ q ∈ parsed, q.line_number = line ∧ q.char_start = cs ∧ q.char_end = ce ∧
      q.group_id = none := by
  intro q hq
  unfold parse_bracket_content at h
  split at h
  · obtain rfl := Option.some.inj h; simp at hq
  · split at h
    · obtain rfl := Option.some.inj h; simp at hq
    · rename_i m hm
      cases hpv : parse_value (trim ((substEsc inner).drop m.stop)) with
      | none => rw [hpv] at h; exact Option.noConfusion h
      | some vl =>
        rw [hpv] at h
        obtain rfl := Option.some.inj h
        simp at hq
        subst hq
        exact ⟨rfl, rfl, rfl, rfl⟩
    · exact multiLoop_fields (substEsc inner) line cs ce _ parsed h q hq

theorem parseSpans_yields :
    ∀ (spans : List Span) (offs : List Nat) (g : Nat) (props : List InlineProperty),
      parseSpans offs g spans = some props →
      ∃ (yields : List (Span × List InlineProperty)) (gids : List (Option Nat)) (k : Nat),
        spanYields offs spans = some yields ∧
        gids.length = yields.length ∧
        props = ((yields.zip gids).map
          (fun x => x.1.2.map (fun p => { p with group_id := x.2 }))).flatten ∧
        (∀ x ∈ yields.zip gids, (x.2.isSome ↔ 2 ≤ x.1.2.length)) ∧
        gids.filterMap id = List.range' (g + 1) k ∧
        (∀ y ∈ yields, ∀ p ∈ y.2, p.char_start = y.1.1 ∧ p.char_end = y.1.2.2 ∧
          p.line_number = lineNumberAt offs y.1.1) := by
  intro spans
  induction spans with
  | nil =>
    intro offs g props h
    obtain rfl := Option.some.inj h
    exact ⟨[], [], 0, rfl, rfl, rfl, by simp, by simp, by simp⟩
  | cons sp rest ih =>
    intro offs g props h
    obtain ⟨cs, inner, ce⟩ := sp
    unfold parseSpans at h
    split at h
    · exact Option.noConfusion h
    · rename_i parsed hpbc
      have hfields := pbc_fields inner (lineNumberAt offs cs) cs ce parsed hpbc
      by_cases hemp : parsed.isEmpty
      · rw [if_pos hemp] at h
        obtain ⟨yields, gids, k, hy, hl, hp, hiff, hfm, hco⟩ := ih offs g props h
        refine ⟨yields, gids, k, ?_, hl, hp, hiff, hfm, hco⟩
        simp only [spanYields, hpbc, if_pos hemp]
        exact hy
      · rw [if_neg hemp] at h
        by_cases hlen : 1 < parsed.length
        · simp only [if_pos hlen, Option.map_eq_some'] at h
          obtain ⟨tail, htail, rfl⟩ := h
          obtain ⟨yields, gids, k, hy, hl, hflat, hiff, hfm, hco⟩ := ih offs (g + 1) tail htail
          refine ⟨((cs, inner, ce), parsed) :: yields, some (g + 1) :: gids, k + 1,
            ?_, ?_, ?_, ?_, ?_, ?_⟩
          · simp only [spanYields, hpbc, if_neg hemp, hy]
            rfl
          · simp only [List.length_cons, hl]
          · rw [hflat]
            simp only [List.zip_cons_cons, List.map_cons, List.flatten_cons]
          · intro x hx
            simp only [List.zip_cons_cons] at hx
            rcases List.mem_cons.mp hx with rfl | hx2
            · simp only [Option.isSome_some, true_iff]
              omega
            · exact hiff x hx2
          · simp only [List.filterMap_cons, id_eq]
            rw [hfm, List.range'_succ]
          · intro y hy2
            rcases List.mem_cons.mp hy2 with rfl | hy3
            · intro p hp
              obtain ⟨h1, h2, h3, _⟩ := hfields p hp
              exact ⟨h2, h3, h1⟩
            · exact hco y hy3
        · simp only [if_neg hlen, Option.map_eq_some'] at h
          obtain ⟨tail, htail, rfl⟩ := h
          obtain ⟨yields, gids, k, hy, hl, hflat, hiff, hfm, hco⟩ := ih offs g tail htail
          refine ⟨((cs, inner, ce), parsed) :: yields, none :: gids, k,
            ?_, ?_, ?_, ?_, ?_, ?_⟩
          · simp only [spanYields, hpbc, if_neg hemp, hy]
            rfl
          · simp only [List.length_cons, hl]
          · rw [hflat]
            simp only [List.zip_cons_cons, List.map_cons, List.flatten_cons]
          · intro x hx
            simp only [List.zip_cons_cons] at hx
            rcases List.mem_cons.mp hx with rfl | hx2
            · simp only [Option.isSome_none, Bool.false_eq_true, false_iff]
              omega
            · exact hiff x hx2
          · simp only [List.filterMap_cons, id_eq]
            exact hfm
          · intro y hy2
            rcases List.mem_cons.mp hy2 with rfl | hy3
            · intro p hp
              obtain ⟨h1, h2, h3, _⟩ := hfields p hp
              exact ⟨h2, h3, h1⟩
            · exact hco y hy3

/-- C3: the property list returned by parse is exactly the concatenation
of the per-span yields computed by spanYields (each productive bracket
span of the scanner paired with the list parse_bracket_content produced
from it), each span's yield stamped throughout with one group id for
that span; that id is Some precisely when the span yielded at least two
properties, and reading the Some ids across the spans in document order
gives exactly 1, 2, ..., k - the counter increments once per grouped
span and the ids strictly increase regardless of intervening standalone
spans.  Every property of a span's yield also carries that span's
char_start, char_end and line number. -/
theorem group_id_block_structure (content : Str) (props : List InlineProperty)
    (h : parse content = some props) :
    ∃ (yields : List (Span × List InlineProperty)) (gids : List (Option Nat)) (k : Nat),
      spanYields (lineOffsets content) (bracketSpans content) = some yields ∧
      gids.length = yields.length ∧
      props = ((yields.zip gids).map
        (fun x => x.1.2.map (fun p => { p with group_id := x.2 }))).flatten ∧
      (∀ x ∈ yields.zip gids, (x.2.isSome ↔ 2 ≤ x.1.2.length)) ∧
      gids.filterMap id = List.range' 1 k ∧
      (∀ y ∈ yields, ∀ p ∈ y.2, p.char_start = y.1.1 ∧ p.char_end = y.1.2.2 ∧
        p.line_number = lineNumberAt (lineOffsets content) y.1.1) :=
  parseSpans_yields (bracketSpans content) (lineOffsets content) 0 props h

/-- C3, witness: the span-yield decomposition applied to a document with
a grouped span, a standalone span, and a second grouped span; the parse
hypothesis is discharged by evaluation and the decomposition assigns
group ids 1, none, 2 to the three spans. -/
theorem group_id_block_structure_witness :
    ∃ (yields : List (Span × List InlineProperty)) (gids : List (Option Nat)) (k : Nat),
      spanYields (lineOffsets (("[a::1, b::2] [x::3] [c::4, d::5]").data))
          (bracketSpans (("[a::1, b::2] [x::3] [c::4, d::5]").data)) = some yields ∧
      gids.length = yields.length ∧
      [(⟨('a' :: []), .Number (.finite 1), ('1' :: []), 1, 0, 12, none, some 1, false⟩ : InlineProperty),
       ⟨('b' :: []), .Number (.finite 2), ('2' :: []), 1, 0, 12, none, some 1, false⟩,
       ⟨('x' :: []), .Number (.finite 3), ('3' :: []), 1, 13, 19, none, none, false⟩,
       ⟨('c' :: []), .Number (.finite 4), ('4' :: []), 1, 20, 32, none, some 2, false⟩,
       ⟨('d' :: []), .Number (.finite 5), ('5' :: []), 1, 20, 32, none, some 2, false⟩] =
        ((yields.zip gids).map
          (fun x => x.1.2.map (fun p => { p with group_id := x.2 }))).flatten ∧
      (∀ x ∈ yields.zip gids, (x.2.isSome ↔ 2 ≤ x.1.2.length)) ∧
      gids.filterMap id = List.range' 1 k ∧
      (∀ y ∈ yields, ∀ p ∈ y.2, p.char_start = y.1.1 ∧ p.char_end = y.1.2.2 ∧
        p.line_number = lineNumberAt (lineOffsets (("[a::1, b::2] [x::3] [c::4, d::5]").data)) y.1.1) :=
  group_id_block_structure (("[a::1, b::2] [x::3] [c::4, d::5]").data) _ (by decide)

/-- C8: the Number rule of the cascade is attempted only when the
trimmed value contains no literal comma, so a value containing a comma
is never classified as Number (first conjunct); when the Number rule is
reached (the trimmed value does not start a relation, is not a boolean
and has no comma) and the 64-bit float parse succeeds, the result is
Number (second conjunct); and the comma-grouped numeral 1,234 falls
through to the list-family handling (third conjunct). -/
theorem number_rule_comma_guard :
    (∀ raw pv lnk, parse_value raw = some (pv, lnk) →
      (trim raw).contains ',' = true → isNumber pv = false) ∧
    (∀ raw v, (trim raw).head? ≠ some '@' →
      eqIgnoreAsciiCase (trim raw) ("true").data = false →
      eqIgnoreAsciiCase (trim raw) ("false").data = false →
      (trim raw).contains ',' = false →
      parseF64? (restoreCommas (trim raw)) = some v →
      parse_value raw = some (.Number v, none)) ∧
    parse_value ("1,234").data = some (.List [('1' :: []), ("234").data], none) := by
  refine ⟨?_, ?_, by decide⟩
  · intro raw pv lnk h hc
    unfold parse_value at h
    simp only [hc] at h
    repeat' split at h
    all_goals first
      | exact Option.noConfusion h
      | (simp only [Option.some.injEq, Prod.mk.injEq] at h; obtain ⟨h1, h2⟩ := h; subst h1; rfl)
      | (exfalso; simp_all)
  · intro raw v h1 h2 h3 h4 h5
    unfold parse_value
    simp only [h1, h2, h3, h4, h5]
    simp

/-- C8, witness: the second conjunct applied to the literal 42 computes
a Number, and the first conjunct applied to the literal 1,234 shows it
is not classified as Number. -/
theorem number_rule_comma_guard_witness :
    parse_value ("42").data = some (.Number (.finite 42), none) ∧
    isNumber (PropertyValue.List [('1' :: []), ("234").data]) = false :=
  ⟨number_rule_comma_guard.2.1 (("42").data) (.finite 42)
      (by decide) (by decide) (by decide) (by decide) (by decide),
   number_rule_comma_guard.1 (("1,234").data) (.List [('1' :: []), ("234").data]) none
      number_rule_comma_guard.2.2 (by decide)⟩

/-- Join lines with a single newline and no trailing terminator. -/
def joinNL : List Str → Str
  | [] => []
  | [l] => l
  | l :: rest => l ++ '\n' :: joinNL rest

/-- Spec-side description of the effect claimed for insert_property:
append a suffix to the end of the line with the given one-based number,
leaving every other line unchanged; out-of-range line numbers (zero, or
past the last line) leave the list unchanged. -/
def specAppendAt (ls : List Str) (line : Nat) (suffix : Str) : List Str :=
  match ls, line with
  | [], _ => []
  | l :: rest, 1 => (l ++ suffix) :: rest
  | l :: rest, n => l :: specAppendAt rest (n - 1) suffix

theorem specAppendAt_out_of_range :
    ∀ (ls : List Str) (line : Nat) (suffix : Str),
      line = 0 ∨ ls.length < line → specAppendAt ls line suffix = ls := by
  intro ls
  induction ls with
  | nil => intro line suffix _; rfl
  | cons l rest ih =>
    intro line suffix hline
    match line, hline with
    | 0, _ => simp [specAppendAt, ih 0 suffix (Or.inl rfl)]
    | n + 1, h =>
      have hlt : rest.length < n := by
        rcases h with h | h
        · exact absurd h (Nat.succ_ne_zero n)
        · simpa using Nat.lt_of_succ_lt_succ h
      match n, hlt with
      | m + 1, hlt => simp [specAppendAt, ih (m + 1) suffix (Or.inr hlt)]

theorem splitCharAux_no_occ (c : Char) (l : Str) (hl : c ∉ l) (s : Str) :
    splitCharAux c (l ++ s) = (l ++ (splitCharAux c s).1, (splitCharAux c s).2) := by
  induction l with
  | nil => simp
  | cons x rest ih =>
    have hx : x ≠ c := by intro h; exact hl (h ▸ List.mem_cons_self x rest)
    have hr : c ∉ rest := fun h => hl (List.mem_cons_of_mem x h)
    simp [splitCharAux, hx, ih hr]

theorem splitChar_joinNL (ls : List Str) (hne : ls ≠ [])
    (hl : ∀ l ∈ ls, '\n' ∉ l) : splitChar '\n' (joinNL ls) = ls := by
  induction ls with
  | nil => exact absurd rfl hne
  | cons l rest ih =>
    cases rest with
    | nil =>
      have h1 := splitCharAux_no_occ '\n' l (hl l (List.mem_cons_self l [])) []
      simp only [List.append_nil] at h1
      simp [splitChar, joinNL, h1, splitCharAux]
    | cons l2 rest2 =>
      have hl2 : ∀ x ∈ l2 :: rest2, '\n' ∉ x := fun x hx => hl x (List.mem_cons_of_mem l hx)
      have ihr := ih (by simp) hl2
      have h1 := splitCharAux_no_occ '\n' l (hl l (List.mem_cons_self l _)) ('\n' :: joinNL (l2 :: rest2))
      have h2 : splitCharAux '\n' ('\n' :: joinNL (l2 :: rest2)) =
          ([], (splitCharAux '\n' (joinNL (l2 :: rest2))).1 :: (splitCharAux '\n' (joinNL (l2 :: rest2))).2) := by
        simp [splitCharAux]
      simp only [splitChar] at ihr
      have hj : joinNL (l :: l2 :: rest2) = l ++ '\n' :: joinNL (l2 :: rest2) := rfl
      unfold splitChar
      rw [hj, h1, h2]
      simpa using congrArg (l :: ·) ihr

theorem rustLines_joinNL (ls : List Str) (hl : ∀ l ∈ ls, '\n' ∉ l)
    (hr : ∀ l ∈ ls, l.getLast? ≠ some '\r') (hlast : ls.getLast? ≠ some []) :
    rustLines (joinNL ls) = ls := by
  cases ls with
  | nil => rfl
  | cons l rest =>
    have hsplit := splitChar_joinNL (l :: rest) (by simp) hl
    have hnotempty : (l :: rest).getLast? ≠ some [] := hlast
    unfold rustLines
    rw [hsplit, if_neg hnotempty]
    have hmap : ∀ xs : List Str, (∀ x ∈ xs, x.getLast? ≠ some '\r') → stripCRlines xs = xs := by
      intro xs
      induction xs with
      | nil => intro _; rfl
      | cons x r ih2 =>
        intro hxs
        have hx : stripCR x = x := by
          unfold stripCR
          rw [if_neg (hxs x (List.mem_cons_self x r))]
        cases r with
        | nil => rfl
        | cons y r2 =>
          show stripCR x :: stripCRlines (y :: r2) = x :: y :: r2
          rw [hx, ih2 (fun z hz => hxs z (List.mem_cons_of_mem x hz))]
    exact hmap (l :: rest) hr

theorem specAppendAt_ne_nil (l2 : Str) (rest2 : List Str) (n : Nat) (ins : Str) :
    specAppendAt (l2 :: rest2) n ins ≠ [] := by
  match n with
  | 0 => simp [specAppendAt]
  | 1 => simp [specAppendAt]
  | m + 2 => simp [specAppendAt]

theorem joinNL_cons (l : Str) (X : List Str) (hX : X ≠ []) :
    joinNL (l :: X) = l ++ '\n' :: joinNL X := by
  cases X with
  | nil => exact absurd rfl hX
  | cons a b => rfl

theorem rebuildLines_joinNL (line : Nat) (ins : Str) :
    ∀ ls i, rebuildLines line ins i ls = joinNL (specAppendAt ls (line - i) ins) := by
  intro ls
  induction ls with
  | nil => intro i; rfl
  | cons l rest ih =>
    intro i
    cases rest with
    | nil =>
      by_cases hil : i + 1 = line
      · have hsub : line - i = 1 := by omega
        rw [hsub]
        simp [rebuildLines, specAppendAt, joinNL, if_pos hil]
      · rcases Nat.lt_or_ge line (i + 1) with hlt | hge
        · have h0 : line - i = 0 := by omega
          rw [h0, specAppendAt_out_of_range _ 0 ins (Or.inl rfl)]
          simp [rebuildLines, joinNL, if_neg hil]
        · obtain ⟨m, hm⟩ : ∃ m, line - i = m + 2 := ⟨line - i - 2, by omega⟩
          rw [hm]
          simp [rebuildLines, specAppendAt, joinNL, if_neg hil]
    | cons l2 rest2 =>
      have hr := ih (i + 1)
      by_cases hil : i + 1 = line
      · have hsub : line - i = 1 := by omega
        have hz : line - (i + 1) = 0 := by omega
        rw [hz, specAppendAt_out_of_range _ 0 ins (Or.inl rfl)] at hr
        rw [hsub]
        simp [rebuildLines, if_pos hil, specAppendAt, hr, joinNL]
      · rcases Nat.lt_or_ge line (i + 1) with hlt | hge
        · have h0 : line - i = 0 := by omega
          have hz : line - (i + 1) = 0 := by omega
          rw [hz, specAppendAt_out_of_range _ 0 ins (Or.inl rfl)] at hr
          rw [h0, specAppendAt_out_of_range _ 0 ins (Or.inl rfl)]
          simp [rebuildLines, if_neg hil, hr, joinNL]
        · obtain ⟨m, hm2⟩ : ∃ m, line - (i + 1) = m + 1 := ⟨line - i - 2, by omega⟩
          have hm : line - i = m + 2 := by omega
          rw [hm]
          rw [hm2] at hr
          have hspec : specAppendAt (l :: l2 :: rest2) (m + 2) ins =
              l :: specAppendAt (l2 :: rest2) (m + 1) ins := by
            simp [specAppendAt]
          rw [hspec, joinNL_cons l _ (specAppendAt_ne_nil l2 rest2 (m + 1) ins)]
          simp [rebuildLines, if_neg hil, hr]

/-- C4, counterexample: the claim states that insert_property leaves the
original line terminator pattern unchanged and is a no-op when the line
number exceeds the line count.  On content with a trailing newline the
terminator is dropped: inserting into line one of the two-byte content
made of the letter a and a newline yields a result without the newline,
not the terminator-preserving result; and on the same content an
out-of-range line number does not return the content unchanged. -/
theorem insert_property_drops_trailing_newline :
    insert_property ("a\n").data 1 ('k' :: []) ('v' :: []) = ("a [k::v]").data ∧
    ("a [k::v]").data ≠ ("a [k::v]\n").data ∧
    insert_property ("a\n").data 5 ('k' :: []) ('v' :: []) = ('a' :: []) ∧
    ('a' :: []) ≠ ("a\n").data := by
  exact ⟨by decide, by decide, by decide, by decide⟩

/-- C4, amended: for content whose lines are joined by single line feeds
with no trailing terminator (no line contains a newline, no line ends in
a carriage return, the final line is not empty), insert_property appends
a space and the bracketed property to the end of the requested one-based
line and leaves every other line and the separators unchanged; when the
line number is zero or exceeds the line count the content is returned
unchanged.  For content with a trailing newline or carriage returns the
result is instead normalized to this line-feed form. -/
theorem insert_property_appends_at_line (ls : List Str) (line : Nat) (key value : Str)
    (hl : ∀ l ∈ ls, '\n' ∉ l) (hr : ∀ l ∈ ls, l.getLast? ≠ some '\r')
    (hlast : ls.getLast? ≠ some []) :
    insert_property (joinNL ls) line key value = joinNL (specAppendAt ls line (insFmt key value)) ∧
    (ls.length < line → insert_property (joinNL ls) line key value = joinNL ls) := by
  have h1 : insert_property (joinNL ls) line key value =
      joinNL (specAppendAt ls line (insFmt key value)) := by
    unfold insert_property
    rw [rustLines_joinNL ls hl hr hlast, rebuildLines_joinNL]
    simp
  refine ⟨h1, fun hlt => ?_⟩
  rw [h1, specAppendAt_out_of_range ls line _ (Or.inr hlt)]

/-- C4, witness for the amended theorem: appending to the second of two
lines and the no-op on an out-of-range line, on concrete content. -/
theorem insert_property_appends_at_line_witness :
    insert_property ("Linea 1\nLinea 2").data 2 ('k' :: []) ('v' :: []) =
      ("Linea 1\nLinea 2 [k::v]").data ∧
    insert_property ("Linea 1\nLinea 2").data 7 ('k' :: []) ('v' :: []) =
      ("Linea 1\nLinea 2").data := by
  have h := insert_property_appends_at_line [("Linea 1").data, ("Linea 2").data] 2
    ('k' :: []) ('v' :: []) (by decide) (by decide) (by decide)
  have h7 := insert_property_appends_at_line [("Linea 1").data, ("Linea 2").data] 7
    ('k' :: []) ('v' :: []) (by decide) (by decide) (by decide)
  exact ⟨h.1.trans (by decide), (h7.2 (by decide)).trans (by decide)⟩

theorem utf8Len_nil : utf8Len [] = 0 := rfl

theorem utf8Len_cons (c : Char) (s : Str) : utf8Len (c :: s) = c.utf8Size + utf8Len s := by
  simp [utf8Len]

theorem utf8Len_append (a b : Str) : utf8Len (a ++ b) = utf8Len a + utf8Len b := by
  simp [utf8Len]

theorem scanB_interior (mid : Str) (hmid : ']' ∉ mid) :
    ∀ (s : Str) (p : Nat) (st : Nat) (acc : Str),
      scanB (mid ++ s) p (some (st, acc)) =
        scanB s (p + utf8Len mid) (some (st, acc ++ mid)) := by
  induction mid with
  | nil => intro s p st acc; simp [utf8Len_nil]
  | cons c mid2 ih =>
    intro s p st acc
    have hc : c ≠ ']' := fun h => hmid (h ▸ List.mem_cons_self c mid2)
    have hm2 : ']' ∉ mid2 := fun h => hmid (List.mem_cons_of_mem c h)
    show scanB (c :: (mid2 ++ s)) p (some (st, acc)) = _
    rw [scanB]
    rw [if_neg hc]
    rw [ih hm2 s (p + c.utf8Size) st (acc ++ [c])]
    rw [utf8Len_cons]
    ring_nf
    rw [List.append_assoc]
    rfl

theorem scanB_openClose (mid : Str) (hmid : ']' ∉ mid) (X : Str) (p : Nat) :
    scanB ('[' :: (mid ++ ']' :: X)) p none =
      (if mid = [] then [] else [(p, mid, p + 2 + utf8Len mid)]) ++
        scanB X (p + 2 + utf8Len mid) none := by
  rw [scanB, if_pos rfl]
  rw [scanB_interior mid hmid (']' :: X) (p + 1) p []]
  rw [scanB, if_pos rfl]
  simp only [List.nil_append]
  by_cases h : mid = []
  · subst h; simp [utf8Len_nil]
  · rw [if_neg h, if_neg h]
    have : p + 1 + utf8Len mid + 1 = p + 2 + utf8Len mid := by omega
    rw [this]
    rfl

theorem scanB_some_decomp :
    ∀ (s : Str) (p : Nat) (st : Nat) (acc : Str) (cs : Nat) (inner : Str) (ce : Nat),
      (cs, inner, ce) ∈ scanB s p (some (st, acc)) →
      ∃ mid post, s = mid ++ ']' :: post ∧ ']' ∉ mid ∧
        ((cs = st ∧ inner = acc ++ mid ∧ inner ≠ [] ∧ ce = p + utf8Len mid + 1 ∧
          scanB s p (some (st, acc)) = (cs, inner, ce) :: scanB post ce none)
         ∨ ((cs, inner, ce) ∈ scanB post (p + utf8Len mid + 1) none ∧
            scanB s p (some (st, acc)) =
              (if acc ++ mid = [] then [] else [(st, acc ++ mid, p + utf8Len mid + 1)]) ++
                scanB post (p + utf8Len mid + 1) none)) := by
  intro s
  induction s with
  | nil => intro p st acc cs inner ce h; simp [scanB] at h
  | cons c s2 ih =>
    intro p st acc cs inner ce h
    by_cases hc : c = ']'
    · subst hc
      rw [scanB, if_pos rfl] at h
      by_cases hacc : acc = []
      · rw [if_pos hacc] at h
        subst hacc
        refine ⟨[], s2, rfl, by simp, Or.inr ⟨by simpa [utf8Len_nil] using h, ?_⟩⟩
        rw [scanB, if_pos rfl, if_pos rfl]
        simp [utf8Len_nil]
      · rw [if_neg hacc] at h
        rcases List.mem_cons.mp h with heq | hmem
        · injection heq with h1 h23
          injection h23 with h2 h3
          refine ⟨[], s2, rfl, by simp, Or.inl ?_⟩
          have hgoal5 : scanB (']' :: s2) p (some (st, acc)) =
              (cs, inner, ce) :: scanB s2 ce none := by
            rw [h1, h2, h3, scanB, if_pos rfl, if_neg hacc]
          exact ⟨h1, by rw [List.append_nil]; exact h2, by rw [h2]; exact hacc,
            by rw [h3]; simp [utf8Len_nil], hgoal5⟩
        · refine ⟨[], s2, rfl, by simp, Or.inr ⟨by simpa [utf8Len_nil] using hmem, ?_⟩⟩
          rw [scanB, if_pos rfl, if_neg hacc]
          simp only [List.append_nil, utf8Len_nil, if_neg hacc]
          simp [hacc]
    · rw [scanB, if_neg hc] at h
      obtain ⟨mid2, post, hs2, hnomid, hdisj⟩ := ih (p + c.utf8Size) st (acc ++ [c]) cs inner ce h
      refine ⟨c :: mid2, post, by rw [hs2]; rfl, ?_, ?_⟩
      · intro hm
        rcases List.mem_cons.mp hm with h1 | h1
        · exact hc h1.symm
        · exact hnomid h1
      rcases hdisj with ⟨h1, h2, h3, h4, h5⟩ | ⟨h1, h2⟩
      · left
        refine ⟨h1, by rw [h2, List.append_assoc]; rfl, h3, ?_, ?_⟩
        · rw [utf8Len_cons]; omega
        · rw [scanB, if_neg hc, h5]
      · right
        have harith : p + utf8Len (c :: mid2) + 1 = p + c.utf8Size + utf8Len mid2 + 1 := by
          rw [utf8Len_cons]; omega
        constructor
        · rw [harith]; exact h1
        · rw [scanB, if_neg hc, h2, harith, List.append_assoc]
          rfl

theorem scanB_none_decomp :
    ∀ (n : Nat) (s : Str), s.length ≤ n → ∀ (p cs : Nat) (inner : Str) (ce : Nat),
      (cs, inner, ce) ∈ scanB s p none →
      ∃ pre post,
        s = pre ++ '[' :: (inner ++ ']' :: post) ∧
        ']' ∉ inner ∧ inner ≠ [] ∧
        cs = p + utf8Len pre ∧ ce = cs + 2 + utf8Len inner ∧
        (∀ inner2 post2, ']' ∉ inner2 → inner2 ≠ [] →
          scanB (pre ++ '[' :: (inner2 ++ ']' :: post2)) p none =
            scanB pre p none ++
              (cs, inner2, cs + 2 + utf8Len inner2) ::
                scanB post2 (cs + 2 + utf8Len inner2) none) := by
  intro n
  induction n with
  | zero =>
    intro s hs p cs inner ce h
    have hnil : s = [] := List.length_eq_zero.mp (Nat.le_zero.mp hs)
    subst hnil
    simp [scanB] at h
  | succ n ih =>
    intro s hs p cs inner ce h
    cases s with
    | nil => simp [scanB] at h
    | cons c s2 =>
    by_cases hc : c = '['
    · subst hc
      rw [scanB, if_pos rfl] at h
      obtain ⟨mid, post, hs2, hnomid, hdisj⟩ := scanB_some_decomp s2 (p + 1) p [] cs inner ce h
      rcases hdisj with ⟨h1, h2, h3, h4, _⟩ | ⟨h1, h2⟩
      · simp only [List.nil_append] at h2
        subst h2
        refine ⟨[], post, by rw [hs2]; rfl, hnomid, h3, by simp [utf8Len_nil, h1],
          by omega, ?_⟩
        intro inner2 post2 hno2 hne2
        rw [List.nil_append, scanB_openClose inner2 hno2 post2 p, if_neg hne2, h1]
        have hnilscan : scanB ([] : Str) p none = [] := rfl
        rw [hnilscan]
        simp
      · have hlen : post.length ≤ n := by
          have hln := congrArg List.length hs2
          simp [List.length_append] at hln
          simp at hs
          omega
        have hq : p + 1 + utf8Len mid + 1 = p + utf8Len mid + 2 := by omega
        rw [hq] at h1 h2
        obtain ⟨pre2, post2, hpost, hno2, hne2, hcs2, hce2, hrepl⟩ :=
          ih post hlen (p + utf8Len mid + 2) cs inner ce h1
        refine ⟨'[' :: (mid ++ ']' :: pre2), post2, ?_, hno2, hne2, ?_, hce2, ?_⟩
        · rw [hs2, hpost]
          simp
        · rw [hcs2, utf8Len_cons, utf8Len_append, utf8Len_cons]
          have hsz : ('[' : Char).utf8Size = 1 := rfl
          have hsz2 : (']' : Char).utf8Size = 1 := rfl
          rw [hsz, hsz2]
          omega
        · intro inner3 post3 hno3 hne3
          have hshape : ('[' :: (mid ++ ']' :: pre2)) ++ '[' :: (inner3 ++ ']' :: post3) =
              '[' :: (mid ++ ']' :: (pre2 ++ '[' :: (inner3 ++ ']' :: post3))) := by simp
          rw [hshape, scanB_openClose mid hnomid _ p]
          have hq2 : p + 2 + utf8Len mid = p + utf8Len mid + 2 := by omega
          rw [hq2, hrepl inner3 post3 hno3 hne3]
          rw [scanB_openClose mid hnomid pre2 p, hq2]
          simp
    · rw [scanB, if_neg hc] at h
      obtain ⟨pre2, post2, hs2, hno2, hne2, hcs2, hce2, hrepl⟩ :=
        ih s2 (by simpa using Nat.le_of_succ_le_succ hs) (p + c.utf8Size) cs inner ce h
      refine ⟨c :: pre2, post2, by rw [hs2]; rfl, hno2, hne2, ?_, hce2, ?_⟩
      · rw [utf8Len_cons]; omega
      · intro inner3 post3 hno3 hne3
        have hstep := hrepl inner3 post3 hno3 hne3
        show scanB (c :: (pre2 ++ '[' :: (inner3 ++ ']' :: post3))) p none = _
        rw [scanB, if_neg hc, hstep]
        have hpre : scanB (c :: pre2) p none = scanB pre2 (p + c.utf8Size) none := by
          rw [scanB, if_neg hc]
        rw [hpre]

theorem parseSpans_mem :
    ∀ (spans : List Span) (offs : List Nat) (g : Nat) (props : List InlineProperty),
      parseSpans offs g spans = some props →
      ∀ p ∈ props, ∃ cs inner ce parsed q gid,
        (cs, inner, ce) ∈ spans ∧
        parse_bracket_content inner (lineNumberAt offs cs) cs ce = some parsed ∧
        q ∈ parsed ∧ p = { q with group_id := gid } := by
  intro spans
  induction spans with
  | nil =>
    intro offs g props h p hp
    obtain rfl := Option.some.inj h
    simp at hp
  | cons sp rest ih =>
    intro offs g props h p hp
    obtain ⟨cs, inner, ce⟩ := sp
    unfold parseSpans at h
    split at h
    · exact Option.noConfusion h
    · rename_i parsed hpbc
      by_cases hemp : parsed.isEmpty
      · rw [if_pos hemp] at h
        obtain ⟨cs2, inner2, ce2, parsed2, q, gid, hmem, hp2, hq, hpe⟩ := ih offs g props h p hp
        exact ⟨cs2, inner2, ce2, parsed2, q, gid, List.mem_cons_of_mem _ hmem, hp2, hq, hpe⟩
      · rw [if_neg hemp] at h
        simp only [Option.map_eq_some'] at h
        obtain ⟨tail, htail, rfl⟩ := h
        rcases List.mem_append.mp hp with hin | hin
        · simp only [List.mem_map] at hin
          obtain ⟨q, hq, rfl⟩ := hin
          exact ⟨cs, inner, ce, parsed, q, _, List.mem_cons_self _ _, hpbc, hq, rfl⟩
        · obtain ⟨cs2, inner2, ce2, parsed2, q, gid, hmem, hp2, hq, hpe⟩ :=
            ih offs _ tail htail p hin
          exact ⟨cs2, inner2, ce2, parsed2, q, gid, List.mem_cons_of_mem _ hmem, hp2, hq, hpe⟩

/-- C2 statement body as a reusable lemma. -/
theorem span_decomp_of_parse (content : Str) (props : List InlineProperty)
    (p : InlineProperty) (h : parse content = some props) (hp : p ∈ props) :
    ∃ pre inner post,
      content = pre ++ '[' :: (inner ++ ']' :: post) ∧
      ']' ∉ inner ∧ inner ≠ [] ∧
      p.char_start = utf8Len pre ∧
      p.char_end = p.char_start + 2 + utf8Len inner := by
  obtain ⟨cs, inner, ce, parsed, q, gid, hmem, hpbc, hq, rfl⟩ :=
    parseSpans_mem (bracketSpans content) (lineOffsets content) 0 props h p hp
  obtain ⟨hln, hcs, hce, _⟩ := pbc_fields inner _ cs ce parsed hpbc q hq
  obtain ⟨pre, post, hdec, hno, hne, hcs2, hce2, _⟩ :=
    scanB_none_decomp content.length content (Nat.le_refl _) 0 cs inner ce hmem
  refine ⟨pre, inner, post, hdec, hno, hne, ?_, ?_⟩
  · show q.char_start = utf8Len pre
    rw [hcs, hcs2]; omega
  · show q.char_end = q.char_start + 2 + utf8Len inner
    rw [hcs, hce]
    omega

theorem char_bounds_of_parse (content : Str) (props : List InlineProperty)
    (p : InlineProperty) (h : parse content = some props) (hp : p ∈ props) :
    p.char_start < p.char_end ∧ p.char_end ≤ utf8Len content := by
  obtain ⟨pre, inner, post, hdec, _, _, hcs, hce⟩ := span_decomp_of_parse content props p h hp
  constructor
  · omega
  · rw [hdec, utf8Len_append, utf8Len_cons, utf8Len_append, utf8Len_cons]
    have h1 : ('[' : Char).utf8Size = 1 := rfl
    have h2 : (']' : Char).utf8Size = 1 := rfl
    rw [h1, h2]
    omega

theorem byteTake?_append (a b : Str) : byteTake? (a ++ b) (utf8Len a) = some a := by
  induction a with
  | nil =>
    show byteTake? b 0 = some []
    cases b <;> rfl
  | cons c a2 ih =>
    have hpos : 0 < c.utf8Size := Char.utf8Size_pos c
    obtain ⟨m, hm⟩ : ∃ m, utf8Len (c :: a2) = m + 1 :=
      ⟨utf8Len (c :: a2) - 1, by rw [utf8Len_cons]; omega⟩
    rw [hm]
    have hle : c.utf8Size ≤ m + 1 := by rw [utf8Len_cons] at hm; omega
    have hsub : m + 1 - c.utf8Size = utf8Len a2 := by rw [utf8Len_cons] at hm; omega
    show (if c.utf8Size ≤ m + 1 then (byteTake? (a2 ++ b) (m + 1 - c.utf8Size)).map (c :: ·)
      else none) = some (c :: a2)
    rw [if_pos hle, hsub, ih]
    rfl

theorem byteDrop?_append (a b : Str) : byteDrop? (a ++ b) (utf8Len a) = some b := by
  induction a with
  | nil =>
    show byteDrop? b 0 = some b
    cases b <;> rfl
  | cons c a2 ih =>
    have hpos : 0 < c.utf8Size := Char.utf8Size_pos c
    obtain ⟨m, hm⟩ : ∃ m, utf8Len (c :: a2) = m + 1 :=
      ⟨utf8Len (c :: a2) - 1, by rw [utf8Len_cons]; omega⟩
    rw [hm]
    have hle : c.utf8Size ≤ m + 1 := by rw [utf8Len_cons] at hm; omega
    have hsub : m + 1 - c.utf8Size = utf8Len a2 := by rw [utf8Len_cons] at hm; omega
    show (if c.utf8Size ≤ m + 1 then byteDrop? (a2 ++ b) (m + 1 - c.utf8Size)
      else none) = some b
    rw [if_pos hle, hsub, ih]

theorem replace_property_eq (content : Str) (props : List InlineProperty)
    (p : InlineProperty) (nv : Str) (h : parse content = some props) (hp : p ∈ props) :
    ∃ pre inner post,
      content = pre ++ '[' :: (inner ++ ']' :: post) ∧
      p.char_start = utf8Len pre ∧ p.char_end = p.char_start + 2 + utf8Len inner ∧
      replace_property content p nv = some (pre ++ fmtProp p.key nv ++ post) := by
  obtain ⟨pre, inner, post, hdec, hno, hne, hcs, hce⟩ := span_decomp_of_parse content props p h hp
  refine ⟨pre, inner, post, hdec, hcs, hce, ?_⟩
  have hre : content = (pre ++ '[' :: (inner ++ [']'])) ++ post := by
    rw [hdec]; simp
  have htake : byteTake? content p.char_start = some pre := by
    rw [hdec, hcs]
    exact byteTake?_append pre _
  have hlen2 : utf8Len (pre ++ '[' :: (inner ++ [']'])) = p.char_end := by
    rw [utf8Len_append, utf8Len_cons, utf8Len_append]
    have h1 : ('[' : Char).utf8Size = 1 := rfl
    have h2 : utf8Len ([']'] : Str) = 1 := rfl
    rw [h1, h2, hce, hcs]
    omega
  have hdrop : byteDrop? content p.char_end = some post := by
    rw [hre, ← hlen2]
    exact byteDrop?_append _ post
  unfold replace_property
  rw [htake, hdrop]
  rfl


/-- C2: every property returned by parse has byte offsets with
0 ≤ char_start < char_end ≤ byte length of the content, and the bytes
of content between char_start and char_end are exactly the full
bracketed span that produced the property: the content splits as a
prefix of char_start bytes, then an opening bracket, the span interior
(nonempty, free of closing brackets, ending at the first closing
bracket) and the closing bracket filling exactly the bytes up to
char_end, then the rest. -/
theorem char_offsets_delimit_span (content : Str) (props : List InlineProperty)
    (p : InlineProperty) (h : parse content = some props) (hp : p ∈ props) :
    p.char_start < p.char_end ∧ p.char_end ≤ utf8Len content ∧
    ∃ pre inner post,
      content = pre ++ '[' :: (inner ++ ']' :: post) ∧
      ']' ∉ inner ∧ inner ≠ [] ∧
      p.char_start = utf8Len pre ∧
      p.char_end = p.char_start + 2 + utf8Len inner :=
  ⟨(char_bounds_of_parse content props p h hp).1,
   (char_bounds_of_parse content props p h hp).2,
   span_decomp_of_parse content props p h hp⟩

/-- C2, witness: the span invariant instantiated on concrete content
whose single property spans bytes two to eight of an eight-byte
document. -/
theorem char_offsets_delimit_span_witness :
    (2 : Nat) < 8 ∧ (8 : Nat) ≤ utf8Len (("x [a::1]").data) ∧
    ∃ pre inner post,
      ("x [a::1]").data = pre ++ '[' :: (inner ++ ']' :: post) ∧
      ']' ∉ inner ∧ inner ≠ [] ∧
      (2 : Nat) = utf8Len pre ∧ (8 : Nat) = 2 + 2 + utf8Len inner :=
  char_offsets_delimit_span (("x [a::1]").data)
    [⟨('a' :: []), .Number (.finite 1), ('1' :: []), 1, 2, 8, none, none, false⟩]
    ⟨('a' :: []), .Number (.finite 1), ('1' :: []), 1, 2, 8, none, none, false⟩
    (by decide) (by decide)

/-- C5: for every property previously parsed from the content,
replace_property substitutes exactly the byte range from char_start to
char_end (which the first conjunct shows to be a full bracketed span)
with an opening bracket, the key, the visible double-colon separator,
the new value and a closing bracket, leaving every byte before
char_start and from char_end on unchanged; and the visible separator is
emitted unconditionally: the second conjunct replaces a property parsed
from a hidden triple-colon span and still produces the double colon. -/
theorem replace_property_frame :
    (∀ (content : Str) (props : List InlineProperty) (p : InlineProperty) (nv : Str),
      parse content = some props → p ∈ props →
      ∃ pre inner post,
        content = pre ++ '[' :: (inner ++ ']' :: post) ∧
        p.char_start = utf8Len pre ∧ p.char_end = p.char_start + 2 + utf8Len inner ∧
        replace_property content p nv =
          some (pre ++ ('[' :: (p.key ++ ':' :: ':' :: (nv ++ [']']))) ++ post)) ∧
    (parse ("x [k:::v]").data =
      some [⟨('k' :: []), .Text ('v' :: []), ('v' :: []), 1, 2, 9, none, none, true⟩] ∧
     replace_property ("x [k:::v]").data
       ⟨('k' :: []), .Text ('v' :: []), ('v' :: []), 1, 2, 9, none, none, true⟩ ('w' :: []) =
       some (("x [k::w]").data)) := by
  refine ⟨?_, by decide, by decide⟩
  intro content props p nv h hp
  obtain ⟨pre, inner, post, hdec, hcs, hce, hrepl⟩ := replace_property_eq content props p nv h hp
  exact ⟨pre, inner, post, hdec, hcs, hce, by rw [hrepl]; rfl⟩

/-- C5, witness: the frame property instantiated on concrete content
with a visible property. -/
theorem replace_property_frame_witness :
    ∃ pre inner post,
      ("x [a::1]").data = pre ++ '[' :: (inner ++ ']' :: post) ∧
      (2 : Nat) = utf8Len pre ∧ (8 : Nat) = 2 + 2 + utf8Len inner ∧
      replace_property (("x [a::1]").data)
        ⟨('a' :: []), .Number (.finite 1), ('1' :: []), 1, 2, 8, none, none, false⟩ ('7' :: []) =
        some (pre ++ ('[' :: (('a' :: []) ++ ':' :: ':' :: (('7' :: []) ++ [']']))) ++ post) :=
  replace_property_frame.1 (("x [a::1]").data)
    [⟨('a' :: []), .Number (.finite 1), ('1' :: []), 1, 2, 8, none, none, false⟩]
    ⟨('a' :: []), .Number (.finite 1), ('1' :: []), 1, 2, 8, none, none, false⟩
    ('7' :: []) (by decide) (by decide)

theorem tws_eq (p : Char → Bool) : ∀ s : Str,
    takeWhileSplit p s = (s.takeWhile p, s.dropWhile p) := by
  intro s
  induction s with
  | nil => rfl
  | cons c rest ih =>
    by_cases hc : p c
    · simp [takeWhileSplit, List.takeWhile_cons, List.dropWhile_cons, hc, ih]
    · simp [takeWhileSplit, List.takeWhile_cons, List.dropWhile_cons, hc]

theorem tws_prefix (p : Char → Bool) : ∀ (a b : Str), a.all p = true →
    (∀ c, b.head? = some c → p c = false) →
    takeWhileSplit p (a ++ b) = (a, b) := by
  intro a
  induction a with
  | nil =>
    intro b _ hb
    cases b with
    | nil => rfl
    | cons c bs =>
      have hc := hb c rfl
      simp [takeWhileSplit, hc]
  | cons x a2 ih =>
    intro b ha hb
    have hx : p x = true := List.all_eq_true.mp ha x (List.mem_cons_self x a2)
    have ha2 : a2.all p = true := by
      rw [List.all_eq_true] at ha ⊢
      exact fun c hc => ha c (List.mem_cons_of_mem x hc)
    simp [takeWhileSplit, hx, ih b ha2 hb]

theorem letter_ident (c : Char) (h : isUnicodeLetter c = true) : isIdentChar c = true := by
  unfold isIdentChar
  rw [h]
  rfl

theorem takeWhile_all (p : Char → Bool) : ∀ s : Str, (s.takeWhile p).all p = true := by
  intro s
  induction s with
  | nil => rfl
  | cons c rest ih =>
    by_cases hc : p c
    · simp [List.takeWhile_cons, hc, ih]
    · simp [List.takeWhile_cons, hc]

theorem matchPairAt_sound (s : Str) (key : Str) (sep3 : Bool) (after : Str)
    (h : matchPairAt s = some (key, sep3, after)) :
    ∃ c kt ws1 ws2,
      key = c :: kt ∧ isUnicodeLetter c = true ∧ key.all isIdentChar = true ∧
      ws1.all isWsChar = true ∧ ws2.all isWsChar = true ∧
      s = key ++ ws1 ++ (if sep3 then ':' :: ':' :: ':' :: ([] : Str) else ':' :: ':' :: []) ++
        ws2 ++ after := by
  cases s with
  | nil => exact Option.noConfusion h
  | cons c0 s2 =>
    by_cases hl : isUnicodeLetter c0
    · simp only [matchPairAt, if_pos hl] at h
      have hkeyhead : (c0 :: s2).takeWhile isIdentChar = c0 :: s2.takeWhile isIdentChar := by
        simp [List.takeWhile_cons, letter_ident c0 hl]
      have hdec : (c0 :: s2).takeWhile isIdentChar ++ (c0 :: s2).dropWhile isIdentChar =
          c0 :: s2 := List.takeWhile_append_dropWhile _ _
      rw [tws_eq] at h
      simp only at h
      rw [tws_eq] at h
      simp only at h
      have hdec2 : ((c0 :: s2).dropWhile isIdentChar).takeWhile isWsChar ++
          ((c0 :: s2).dropWhile isIdentChar).dropWhile isWsChar =
          (c0 :: s2).dropWhile isIdentChar := List.takeWhile_append_dropWhile _ _
      split at h
      · rename_i r4 heq
        rw [tws_eq] at h
        simp only [Option.some.injEq, Prod.mk.injEq] at h
        obtain ⟨hkey, hsep, hafter⟩ := h
        refine ⟨c0, s2.takeWhile isIdentChar, ((c0 :: s2).dropWhile isIdentChar).takeWhile isWsChar,
          r4.takeWhile isWsChar, by rw [← hkey, hkeyhead], hl,
          by rw [← hkey]; exact takeWhile_all _ _,
          takeWhile_all _ _, takeWhile_all _ _, ?_⟩
        rw [← hkey, ← hsep, ← hafter]
        have hr4 : r4 = r4.takeWhile isWsChar ++ r4.dropWhile isWsChar :=
          (List.takeWhile_append_dropWhile _ _).symm
        have hB : (c0 :: s2).dropWhile isIdentChar =
            ((c0 :: s2).dropWhile isIdentChar).takeWhile isWsChar ++ (':' :: ':' :: ':' :: r4) :=
          hdec2.symm.trans (congrArg (((c0 :: s2).dropWhile isIdentChar).takeWhile isWsChar ++ ·) heq)
        calc c0 :: s2
            = (c0 :: s2).takeWhile isIdentChar ++ (c0 :: s2).dropWhile isIdentChar := hdec.symm
          _ = (c0 :: s2).takeWhile isIdentChar ++
              (((c0 :: s2).dropWhile isIdentChar).takeWhile isWsChar ++
                (':' :: ':' :: ':' :: r4)) := congrArg ((c0 :: s2).takeWhile isIdentChar ++ ·) hB
          _ = _ := by
            conv_lhs => rw [hr4]
            simp [List.append_assoc]
      · rename_i r3 hcond heq
        rw [tws_eq] at h
        simp only [Option.some.injEq, Prod.mk.injEq] at h
        obtain ⟨hkey, hsep, hafter⟩ := h
        refine ⟨c0, s2.takeWhile isIdentChar, ((c0 :: s2).dropWhile isIdentChar).takeWhile isWsChar,
          r3.takeWhile isWsChar, by rw [← hkey, hkeyhead], hl,
          by rw [← hkey]; exact takeWhile_all _ _,
          takeWhile_all _ _, takeWhile_all _ _, ?_⟩
        rw [← hkey, ← hsep, ← hafter]
        have hr3 : r3 = r3.takeWhile isWsChar ++ r3.dropWhile isWsChar :=
          (List.takeWhile_append_dropWhile _ _).symm
        have hB : (c0 :: s2).dropWhile isIdentChar =
            ((c0 :: s2).dropWhile isIdentChar).takeWhile isWsChar ++ (':' :: ':' :: r3) :=
          hdec2.symm.trans (congrArg (((c0 :: s2).dropWhile isIdentChar).takeWhile isWsChar ++ ·) heq)
        calc c0 :: s2
            = (c0 :: s2).takeWhile isIdentChar ++ (c0 :: s2).dropWhile isIdentChar := hdec.symm
          _ = (c0 :: s2).takeWhile isIdentChar ++
              (((c0 :: s2).dropWhile isIdentChar).takeWhile isWsChar ++
                (':' :: ':' :: r3)) := congrArg ((c0 :: s2).takeWhile isIdentChar ++ ·) hB
          _ = _ := by
            conv_lhs => rw [hr3]
            simp [List.append_assoc]
      · exact Option.noConfusion h
    · simp only [matchPairAt, if_neg hl] at h
      exact Option.noConfusion h

theorem matchPairAt_length (s : Str) (key : Str) (sep3 : Bool) (after : Str)
    (h : matchPairAt s = some (key, sep3, after)) : after.length < s.length := by
  obtain ⟨c, kt, ws1, ws2, hk, _, _, _, _, hs⟩ := matchPairAt_sound s key sep3 after h
  rw [hs, hk]
  simp [List.length_append]
  cases sep3 <;> simp <;> omega

theorem findPairsF_key :
    ∀ (f : Nat) (s : Str) (pos : Nat) (m : PairMatch), m ∈ findPairsF f s pos →
      ∃ c kt, m.key = c :: kt ∧ isUnicodeLetter c = true ∧ m.key.all isIdentChar = true := by
  intro f
  induction f with
  | zero => intro s pos m hm; simp [findPairsF] at hm
  | succ f ih =>
    intro s pos m hm
    cases s with
    | nil => simp [findPairsF] at hm
    | cons c0 s2 =>
      cases hmp : matchPairAt (c0 :: s2) with
      | none =>
        simp only [findPairsF, hmp] at hm
        exact ih s2 (pos + 1) m hm
      | some kba =>
        obtain ⟨key, sep3, after⟩ := kba
        simp only [findPairsF, hmp] at hm
        rcases List.mem_cons.mp hm with rfl | hm2
        · obtain ⟨c, kt, ws1, ws2, hk, hlet, hall, _, _, _⟩ := matchPairAt_sound _ _ _ _ hmp
          exact ⟨c, kt, hk, hlet, by rw [hk] at hall ⊢; exact hall⟩
        · exact ih after _ m hm2

theorem findPairsF_congr :
    ∀ (f1 : Nat) (s : Str) (f2 pos : Nat), s.length ≤ f1 → s.length ≤ f2 →
      findPairsF f1 s pos = findPairsF f2 s pos := by
  intro f1
  induction f1 with
  | zero =>
    intro s f2 pos h1 _
    have hs : s = [] := List.length_eq_zero.mp (Nat.le_zero.mp h1)
    subst hs
    cases f2 <;> rfl
  | succ f ih =>
    intro s f2 pos h1 h2
    cases s with
    | nil => cases f2 <;> rfl
    | cons c0 s2 =>
      obtain ⟨f2m, rfl⟩ : ∃ m, f2 = m + 1 := by
        cases f2 with
        | zero => simp at h2
        | succ m => exact ⟨m, rfl⟩
      cases hmp : matchPairAt (c0 :: s2) with
      | none =>
        have hle : s2.length ≤ f := by simp at h1; omega
        have hle2 : s2.length ≤ f2m := by simp at h2; omega
        simp only [findPairsF, hmp]
        exact ih s2 f2m (pos + 1) hle hle2
      | some kba =>
        obtain ⟨key, sep3, after⟩ := kba
        have hlt := matchPairAt_length _ _ _ _ hmp
        have hle : after.length ≤ f := by simp at h1 hlt ⊢; omega
        have hle2 : after.length ≤ f2m := by simp at h2 hlt ⊢; omega
        simp only [findPairsF, hmp]
        rw [ih after f2m _ hle hle2]

theorem findPairsF_shift :
    ∀ (f : Nat) (s : Str) (pos : Nat),
      findPairsF f s pos =
        (findPairsF f s 0).map (fun m => ⟨m.start + pos, m.key, m.sep3, m.stop + pos⟩) := by
  intro f
  induction f with
  | zero => intro s pos; cases s <;> rfl
  | succ f ih =>
    intro s pos
    cases s with
    | nil => rfl
    | cons c0 s2 =>
      cases hmp : matchPairAt (c0 :: s2) with
      | none =>
        simp only [findPairsF, hmp]
        rw [ih s2 (pos + 1), ih s2 1, List.map_map]
        refine congrArg (fun g => List.map g (findPairsF f s2 0)) ?_
        funext m
        simp
        omega
      | some kba =>
        obtain ⟨key, sep3, after⟩ := kba
        simp only [findPairsF, hmp, List.map_cons]
        refine congrArg₂ _ (by simp [Nat.add_comm]) ?_
        rw [ih after (pos + ((c0 :: s2).length - after.length)),
          ih after (0 + ((c0 :: s2).length - after.length)), List.map_map]
        refine congrArg (fun g => List.map g (findPairsF f after 0)) ?_
        funext m
        simp
        omega

theorem isIdentChar_colon : isIdentChar ':' = false := by decide

theorem isWsChar_colon : isWsChar ':' = false := by decide

theorem matchPairAt_anchor (key nv : Str) (c : Char) (kt : Str)
    (hk : key = c :: kt) (hlet : isUnicodeLetter c = true)
    (hall : key.all isIdentChar = true) (hnv : nv.head? ≠ some ':') :
    matchPairAt (key ++ ':' :: ':' :: nv) = some (key, false, nv.dropWhile isWsChar) := by
  subst hk
  have htws : takeWhileSplit isIdentChar ((c :: kt) ++ ':' :: ':' :: nv) =
      (c :: kt, ':' :: ':' :: nv) :=
    tws_prefix isIdentChar (c :: kt) (':' :: ':' :: nv) hall
      (fun d hd => by
        rw [List.head?_cons, Option.some.injEq] at hd
        rw [← hd]; exact isIdentChar_colon)
  have htws2 : takeWhileSplit isWsChar (':' :: ':' :: nv) = ([], ':' :: ':' :: nv) := by
    simp [takeWhileSplit, isWsChar_colon]
  have htws3 : takeWhileSplit isIdentChar (c :: (kt ++ ':' :: ':' :: nv)) =
      (c :: kt, ':' :: ':' :: nv) := by
    simpa [List.cons_append] using htws
  simp only [matchPairAt, List.cons_append, if_pos hlet, htws3, htws2]
  split
  · rename_i r4 heq
    exfalso
    rw [List.cons.injEq, List.cons.injEq] at heq
    exact hnv (by rw [heq.2.2, List.head?_cons])
  · rename_i r3 hcond heq
    rw [List.cons.injEq, List.cons.injEq] at heq
    obtain ⟨-, -, rfl⟩ := heq
    rw [tws_eq]
  · rename_i hcond2
    exact absurd rfl (hcond2 nv)

theorem findPairs_anchor_single (key nv : Str) (c : Char) (kt : Str)
    (hk : key = c :: kt) (hlet : isUnicodeLetter c = true)
    (hall : key.all isIdentChar = true) (hnv : nv.head? ≠ some ':')
    (hempty : findPairs (nv.dropWhile isWsChar) 0 = []) :
    findPairs (key ++ ':' :: ':' :: nv) 0 =
      [⟨0, key, false, (key ++ ':' :: ':' :: nv).length - (nv.dropWhile isWsChar).length⟩] := by
  have hmp := matchPairAt_anchor key nv c kt hk hlet hall hnv
  unfold findPairs
  have hform : key ++ ':' :: ':' :: nv = c :: (kt ++ ':' :: ':' :: nv) := by rw [hk]; rfl
  have hlen : (key ++ ':' :: ':' :: nv).length = (kt ++ ':' :: ':' :: nv).length + 1 := by
    rw [hform]; rfl
  rw [hform] at hmp ⊢
  simp only [List.length_cons]
  simp only [findPairsF, hmp]
  have hlt := matchPairAt_length _ _ _ _ hmp
  have hle : (nv.dropWhile isWsChar).length ≤ (kt ++ ':' :: ':' :: nv).length := by
    simp at hlt ⊢
    omega
  rw [findPairsF_congr _ _ (nv.dropWhile isWsChar).length _ hle (Nat.le_refl _)]
  rw [findPairsF_shift _ _ _]
  unfold findPairs at hempty
  rw [hempty]
  simp

theorem drop_anchor (key nv : Str) :
    (key ++ ':' :: ':' :: nv).drop
      ((key ++ ':' :: ':' :: nv).length - (nv.dropWhile isWsChar).length) =
      nv.dropWhile isWsChar := by
  have hsplit : key ++ ':' :: ':' :: nv =
      (key ++ ':' :: ':' :: nv.takeWhile isWsChar) ++ nv.dropWhile isWsChar := by
    conv_lhs => rw [← List.takeWhile_append_dropWhile (p := isWsChar) (l := nv)]
    simp
  rw [hsplit]
  have hlen : ((key ++ ':' :: ':' :: nv.takeWhile isWsChar) ++ nv.dropWhile isWsChar).length -
      (nv.dropWhile isWsChar).length = (key ++ ':' :: ':' :: nv.takeWhile isWsChar).length := by
    have h0 : (nv.takeWhile isWsChar ++ nv.dropWhile isWsChar).length = nv.length := by
      rw [List.takeWhile_append_dropWhile]
    rw [List.length_append] at h0
    simp only [List.length_append, List.length_cons]
    omega
  rw [hlen, List.drop_left]

theorem substEsc_no_backslash (a : Str) (ha : '\\' ∉ a) :
    ∀ b, substEsc (a ++ b) = a ++ substEsc b := by
  induction a with
  | nil => intro b; rfl
  | cons x a2 ih =>
    intro b
    have hx : x ≠ '\\' := fun h => ha (h ▸ List.mem_cons_self x a2)
    have ha2 : '\\' ∉ a2 := fun h => ha (List.mem_cons_of_mem x h)
    show substEsc (x :: (a2 ++ b)) = x :: (a2 ++ substEsc b)
    rw [← ih ha2 b]
    rw [substEsc.eq_def]
    split
    · rename_i rest heq
      rw [List.cons.injEq] at heq
      exact absurd heq.1 hx
    · rename_i c2 rest2 heq
      rw [List.cons.injEq] at heq
      rw [heq.1, heq.2]
    · rename_i heq
      exact List.noConfusion heq

theorem dropWhile_idem (p : Char → Bool) : ∀ s : Str,
    (s.dropWhile p).dropWhile p = s.dropWhile p := by
  intro s
  induction s with
  | nil => rfl
  | cons c rest ih =>
    by_cases hc : p c
    · simp [List.dropWhile_cons, hc, ih]
    · simp [List.dropWhile_cons, hc]

theorem trim_dropWhile (s : Str) : trim (s.dropWhile isWsChar) = trim s := by
  unfold trim
  rw [dropWhile_idem]

theorem ident_no_backslash (key : Str) (hall : key.all isIdentChar = true) : '\\' ∉ key := by
  intro hmem
  have := List.all_eq_true.mp hall '\\' hmem
  exact absurd this (by decide)

theorem ident_no_rbracket (key : Str) (hall : key.all isIdentChar = true) : ']' ∉ key := by
  intro hmem
  have := List.all_eq_true.mp hall ']' hmem
  exact absurd this (by decide)

theorem pbc_anchor (key nv : Str) (c : Char) (kt : Str) (ln cs ce : Nat)
    (hk : key = c :: kt) (hlet : isUnicodeLetter c = true)
    (hall : key.all isIdentChar = true) (hnv : nv.head? ≠ some ':')
    (hsub : substEsc nv = nv)
    (hempty : findPairs (nv.dropWhile isWsChar) 0 = [])
    (v : PropertyValue) (lnk : Option Str)
    (hpv : parse_value (trim nv) = some (v, lnk)) :
    parse_bracket_content (key ++ ':' :: ':' :: nv) ln cs ce =
      some [mkProp key v (restoreCommas (trim nv)) ln cs ce lnk false] := by
  have hsubI : substEsc (key ++ ':' :: ':' :: nv) = key ++ ':' :: ':' :: nv := by
    have hkey := ident_no_backslash key hall
    have h1 : substEsc ((key ++ (':' :: ':' :: [])) ++ nv) = (key ++ (':' :: ':' :: [])) ++ substEsc nv := by
      refine substEsc_no_backslash _ ?_ nv
      intro hmem
      rcases List.mem_append.mp hmem with hm | hm
      · exact hkey hm
      · simp at hm
    rw [List.append_assoc] at h1
    simp only [List.cons_append, List.nil_append] at h1
    rw [h1, hsub]
    simp
  have hfp := findPairs_anchor_single key nv c kt hk hlet hall hnv hempty
  have hdrop := drop_anchor key nv
  unfold parse_bracket_content
  rw [hsubI, hfp]
  rw [if_neg (by simp)]
  simp only
  rw [hdrop, trim_dropWhile]
  rw [hpv]

theorem multiLoop_key (escaped : Str) (line cs ce : Nat) :
    ∀ pairs parsed, multiLoop escaped line cs ce pairs = some parsed →
      ∀ q ∈ parsed, ∃ m ∈ pairs, q.key = m.key := by
  intro pairs
  induction pairs with
  | nil => intro parsed h q hq; cases h; simp at hq
  | cons m tail ih =>
    intro parsed h q hq
    cases tail with
    | nil =>
      cases hpv : parse_value (trim (escaped.drop m.stop)) with
      | none => rw [multiLoop, hpv] at h; exact Option.noConfusion h
      | some vl =>
        rw [multiLoop, hpv] at h
        obtain rfl := Option.some.inj h
        simp at hq
        subst hq
        exact ⟨m, List.mem_cons_self m [], rfl⟩
    | cons m2 rest =>
      cases hpv : parse_value (groupValue escaped m m2) with
      | none => rw [multiLoop, hpv] at h; exact Option.noConfusion h
      | some vl =>
        rw [multiLoop, hpv] at h
        simp only [Option.map_eq_some'] at h
        obtain ⟨tail2, htail, rfl⟩ := h
        rcases List.mem_cons.mp hq with rfl | hq2
        · exact ⟨m, List.mem_cons_self m _, rfl⟩
        · obtain ⟨m3, hm3, hkey⟩ := ih tail2 htail q hq2
          exact ⟨m3, List.mem_cons_of_mem m hm3, hkey⟩

theorem pbc_key (inner : Str) (line cs ce : Nat) (parsed : List InlineProperty)
    (h : parse_bracket_content inner line cs ce = some parsed) :
    ∀ q ∈ parsed, ∃ m ∈ findPairs (substEsc inner) 0, q.key = m.key := by
  intro q hq
  unfold parse_bracket_content at h
  split at h
  · obtain rfl := Option.some.inj h; simp at hq
  · split at h
    · obtain rfl := Option.some.inj h; simp at hq
    · rename_i m hm
      cases hpv : parse_value (trim ((substEsc inner).drop m.stop)) with
      | none => rw [hpv] at h; exact Option.noConfusion h
      | some vl =>
        rw [hpv] at h
        obtain rfl := Option.some.inj h
        simp at hq
        subst hq
        exact ⟨m, by rw [hm]; exact List.mem_cons_self m [], rfl⟩
    · rename_i m m2 rest hm
      obtain ⟨m3, hm3, hkey⟩ := multiLoop_key (substEsc inner) line cs ce _ parsed h q hq
      exact ⟨m3, by rw [hm]; exact hm3, hkey⟩

theorem scanB_shift :
    ∀ (s : Str) (d p : Nat),
      (scanB s (p + d) none = (scanB s p none).map (fun sp => (sp.1 + d, sp.2.1, sp.2.2 + d))) ∧
      (∀ st acc, scanB s (p + d) (some (st + d, acc)) =
        (scanB s p (some (st, acc))).map (fun sp => (sp.1 + d, sp.2.1, sp.2.2 + d))) := by
  intro s
  induction s with
  | nil => intro d p; exact ⟨rfl, fun _ _ => rfl⟩
  | cons c s2 ih =>
    intro d p
    constructor
    · by_cases hc : c = '['
      · subst hc
        rw [scanB, scanB, if_pos rfl, if_pos rfl]
        have := (ih d (p + 1)).2 p []
        rw [Nat.add_right_comm p 1 d] at this
        exact this
      · rw [scanB, scanB, if_neg hc, if_neg hc]
        have := (ih d (p + c.utf8Size)).1
        rw [Nat.add_right_comm p c.utf8Size d] at this
        exact this
    · intro st acc
      by_cases hc : c = ']'
      · subst hc
        rw [scanB, scanB, if_pos rfl, if_pos rfl]
        by_cases hacc : acc = []
        · rw [if_pos hacc, if_pos hacc]
          have := (ih d (p + 1)).1
          rw [Nat.add_right_comm p 1 d] at this
          exact this
        · rw [if_neg hacc, if_neg hacc]
          have := (ih d (p + 1)).1
          rw [Nat.add_right_comm p 1 d] at this
          rw [List.map_cons]
          rw [this]
          simp
          omega
      · rw [scanB, scanB, if_neg hc, if_neg hc]
        have := (ih d (p + c.utf8Size)).2 st (acc ++ [c])
        rw [Nat.add_right_comm p c.utf8Size d] at this
        exact this

theorem parseSpans_some_elim :
    ∀ (spans : List Span) (offs : List Nat) (g : Nat) (props : List InlineProperty),
      parseSpans offs g spans = some props →
      ∀ sp ∈ spans, ∃ parsed,
        parse_bracket_content sp.2.1 (lineNumberAt offs sp.1) sp.1 sp.2.2 = some parsed := by
  intro spans
  induction spans with
  | nil => intro offs g props _ sp hsp; simp at hsp
  | cons sp0 rest ih =>
    intro offs g props h sp hsp
    obtain ⟨cs, inner, ce⟩ := sp0
    unfold parseSpans at h
    split at h
    · exact Option.noConfusion h
    · rename_i parsed hpbc
      rcases List.mem_cons.mp hsp with rfl | hsp2
      · exact ⟨parsed, hpbc⟩
      · by_cases hemp : parsed.isEmpty
        · rw [if_pos hemp] at h
          exact ih offs g props h sp hsp2
        · rw [if_neg hemp] at h
          simp only [Option.map_eq_some'] at h
          obtain ⟨tail, htail, rfl⟩ := h
          exact ih offs _ tail htail sp hsp2

def reloc (ln cs ce : Nat) (q : InlineProperty) : InlineProperty :=
  { q with line_number := ln, char_start := cs, char_end := ce }

theorem multiLoop_param (escaped : Str) (line cs ce : Nat) :
    ∀ pairs, multiLoop escaped line cs ce pairs =
      (multiLoop escaped 0 0 0 pairs).map (List.map (reloc line cs ce)) := by
  intro pairs
  induction pairs with
  | nil => rfl
  | cons m tail ih =>
    cases tail with
    | nil =>
      cases hpv : parse_value (trim (escaped.drop m.stop)) with
      | none => rw [multiLoop, hpv, multiLoop, hpv]; rfl
      | some vl => rw [multiLoop, hpv, multiLoop, hpv]; rfl
    | cons m2 rest =>
      cases hpv : parse_value (groupValue escaped m m2) with
      | none => rw [multiLoop, hpv, multiLoop, hpv]; rfl
      | some vl =>
        rw [multiLoop, hpv, multiLoop, hpv, ih]
        cases hml : multiLoop escaped 0 0 0 (m2 :: rest) with
        | none => rfl
        | some tail2 => rfl

theorem pbc_param (inner : Str) (line cs ce : Nat) :
    parse_bracket_content inner line cs ce =
      (parse_bracket_content inner 0 0 0).map (List.map (reloc line cs ce)) := by
  unfold parse_bracket_content
  split
  · rfl
  · split
    · rfl
    · rename_i m hm
      cases hpv : parse_value (trim ((substEsc inner).drop m.stop)) with
      | none => rfl
      | some vl => rfl
    · rename_i m m2 rest hm
      exact multiLoop_param (substEsc inner) line cs ce _

theorem parseSpans_total :
    ∀ (spans : List Span) (offs : List Nat) (g : Nat),
      (∀ sp ∈ spans, ∃ parsed, parse_bracket_content sp.2.1 0 0 0 = some parsed) →
      ∃ props, parseSpans offs g spans = some props := by
  intro spans
  induction spans with
  | nil => intro offs g _; exact ⟨[], rfl⟩
  | cons sp0 rest ih =>
    intro offs g hall
    obtain ⟨cs, inner, ce⟩ := sp0
    obtain ⟨parsed0, hp0⟩ := hall (cs, inner, ce) (List.mem_cons_self _ _)
    have hp : parse_bracket_content inner (lineNumberAt offs cs) cs ce =
        some (parsed0.map (reloc (lineNumberAt offs cs) cs ce)) := by
      rw [pbc_param inner (lineNumberAt offs cs) cs ce]
      have hp02 : parse_bracket_content inner 0 0 0 = some parsed0 := hp0
      rw [hp02]
      rfl
    have hrest : ∀ sp ∈ rest, ∃ parsed, parse_bracket_content sp.2.1 0 0 0 = some parsed :=
      fun sp hsp => hall sp (List.mem_cons_of_mem _ hsp)
    simp only [parseSpans, hp]
    by_cases hemp : (parsed0.map (reloc (lineNumberAt offs cs) cs ce)).isEmpty
    · rw [if_pos hemp]
      exact ih offs g hrest
    · rw [if_neg hemp]
      obtain ⟨tail, htail⟩ := ih offs
        (if 1 < (parsed0.map (reloc (lineNumberAt offs cs) cs ce)).length then g + 1 else g) hrest
      rw [htail]
      exact ⟨_, rfl⟩

theorem parseSpans_mem_intro :
    ∀ (spans : List Span) (offs : List Nat) (g : Nat) (props : List InlineProperty),
      parseSpans offs g spans = some props →
      ∀ cs inner ce q, (cs, inner, ce) ∈ spans →
        parse_bracket_content inner (lineNumberAt offs cs) cs ce = some [q] →
        { q with group_id := none } ∈ props := by
  intro spans
  induction spans with
  | nil => intro offs g props _ cs inner ce q hsp; simp at hsp
  | cons sp0 rest ih =>
    intro offs g props h cs inner ce q hsp hpbc
    obtain ⟨cs0, inner0, ce0⟩ := sp0
    unfold parseSpans at h
    split at h
    · exact Option.noConfusion h
    · rename_i parsed0 hpbc0
      rcases List.mem_cons.mp hsp with heq | hsp2
      · injection heq with h1 h23
        injection h23 with h2 h3
        subst h1; subst h2; subst h3
        rw [hpbc0] at hpbc
        obtain rfl := Option.some.inj hpbc
        rw [if_neg (by simp)] at h
        simp only [Option.map_eq_some'] at h
        obtain ⟨tail, htail, rfl⟩ := h
        rw [List.map_cons]
        rw [if_neg (by simp)]
        exact List.mem_cons_self _ _
      · by_cases hemp : parsed0.isEmpty
        · rw [if_pos hemp] at h
          exact ih offs g props h cs inner ce q hsp2 hpbc
        · rw [if_neg hemp] at h
          simp only [Option.map_eq_some'] at h
          obtain ⟨tail, htail, rfl⟩ := h
          exact List.mem_append.mpr (Or.inr (ih offs _ tail htail cs inner ce q hsp2 hpbc))

theorem replace_property_reparse
    (content : Str) (props : List InlineProperty) (p : InlineProperty) (nv newC : Str)
    (v : PropertyValue) (lnk : Option Str)
    (h : parse content = some props) (hp : p ∈ props)
    (hrb : ']' ∉ nv) (hcolon : nv.head? ≠ some ':')
    (hsub : substEsc nv = nv) (hrestore : restoreCommas (trim nv) = trim nv)
    (hempty : findPairs (nv.dropWhile isWsChar) 0 = [])
    (hpv : parse_value (trim nv) = some (v, lnk))
    (hrepl : replace_property content p nv = some newC) :
    ∃ props2, parse newC = some props2 ∧
      ∃ q ∈ props2, q.key = p.key ∧ q.char_start = p.char_start ∧
        q.raw_value = trim nv ∧ q.value = v ∧ q.linked_note = lnk ∧
        q.group_id = none ∧ q.hidden = false := by
  obtain ⟨cs, inner, ce, parsed, q0, gid, hmemspan, hpbc0, hq0, hpe⟩ :=
    parseSpans_mem (bracketSpans content) (lineOffsets content) 0 props h p hp
  obtain ⟨hln0, hcs0, hce0, _⟩ := pbc_fields inner _ cs ce parsed hpbc0 q0 hq0
  have hpcs : p.char_start = cs := by rw [hpe]; exact hcs0
  have hpce : p.char_end = ce := by rw [hpe]; exact hce0
  have hpkey : p.key = q0.key := by rw [hpe]
  obtain ⟨m, hm, hkeym⟩ := pbc_key inner _ cs ce parsed hpbc0 q0 hq0
  obtain ⟨c, kt, hkc, hlet, hall⟩ := findPairsF_key _ _ _ m hm
  have hkeyshape : p.key = c :: kt := by rw [hpkey, hkeym, hkc]
  have hkeyall : p.key.all isIdentChar = true := by rw [hpkey, hkeym]; exact hall
  obtain ⟨pre, post, hdec, hno, hne, hcs2, hce2, hreplS⟩ :=
    scanB_none_decomp content.length content (Nat.le_refl _) 0 cs inner ce hmemspan
  have hcsL : cs = utf8Len pre := by rw [hcs2]; omega
  -- the rewritten content
  have htake : byteTake? content p.char_start = some pre := by
    rw [hdec, hpcs, hcsL]
    exact byteTake?_append pre _
  have hre : content = (pre ++ '[' :: (inner ++ [']'])) ++ post := by rw [hdec]; simp
  have hlen2 : utf8Len (pre ++ '[' :: (inner ++ [']'])) = p.char_end := by
    rw [utf8Len_append, utf8Len_cons, utf8Len_append]
    have h1 : ('[' : Char).utf8Size = 1 := rfl
    have h2 : utf8Len ([']'] : Str) = 1 := rfl
    rw [h1, h2, hpce, hce2, hcsL]
    omega
  have hdrop : byteDrop? content p.char_end = some post := by
    rw [hre, ← hlen2]
    exact byteDrop?_append _ post
  have hnewC : newC = pre ++ '[' :: ((p.key ++ ':' :: ':' :: nv) ++ ']' :: post) := by
    unfold replace_property at hrepl
    rw [htake, hdrop] at hrepl
    have := Option.some.inj hrepl
    rw [← this]
    unfold fmtProp
    simp
  -- the new interior
  have hno2 : ']' ∉ p.key ++ ':' :: ':' :: nv := by
    intro hmem
    rcases List.mem_append.mp hmem with hmk | hmk
    · exact ident_no_rbracket p.key hkeyall hmk
    · rcases List.mem_cons.mp hmk with hc1 | hmk2
      · exact absurd hc1 (by decide)
      · rcases List.mem_cons.mp hmk2 with hc2 | hmk3
        · exact absurd hc2 (by decide)
        · exact hrb hmk3
  have hne2 : p.key ++ ':' :: ':' :: nv ≠ [] := by
    rw [hkeyshape]
    simp
  have hscanNew : scanB newC 0 none =
      scanB pre 0 none ++
        (cs, p.key ++ ':' :: ':' :: nv, cs + 2 + utf8Len (p.key ++ ':' :: ':' :: nv)) ::
          scanB post (cs + 2 + utf8Len (p.key ++ ':' :: ':' :: nv)) none := by
    rw [hnewC]
    exact hreplS (p.key ++ ':' :: ':' :: nv) post hno2 hne2
  have hscanOld : scanB content 0 none =
      scanB pre 0 none ++ (cs, inner, ce) :: scanB post ce none := by
    have := hreplS inner post hno hne
    rw [← hdec] at this
    rw [this, ← hce2]
  -- totality of the new parse
  have hparseOld : parseSpans (lineOffsets content) 0 (bracketSpans content) = some props := h
  have htotal : ∀ sp ∈ bracketSpans newC, ∃ parsed2,
      parse_bracket_content sp.2.1 0 0 0 = some parsed2 := by
    intro sp hsp
    unfold bracketSpans at hsp
    rw [hscanNew] at hsp
    rcases List.mem_append.mp hsp with hin | hin
    · have hinOld : sp ∈ bracketSpans content := by
        unfold bracketSpans
        rw [hscanOld]
        exact List.mem_append.mpr (Or.inl hin)
      obtain ⟨parsed2, hp2⟩ := parseSpans_some_elim _ _ _ _ hparseOld sp hinOld
      rw [pbc_param] at hp2
      obtain ⟨parsed3, hp3, _⟩ := Option.map_eq_some'.mp hp2
      exact ⟨parsed3, hp3⟩
    · rcases List.mem_cons.mp hin with rfl | hin2
      · exact ⟨_, pbc_anchor p.key nv c kt 0 0 0 hkeyshape hlet hkeyall hcolon hsub hempty
          v lnk hpv⟩
      · -- a span of the suffix, shifted
        have hshift2 := (scanB_shift post (cs + 2 + utf8Len (p.key ++ ':' :: ':' :: nv)) 0).1
        rw [Nat.zero_add] at hshift2
        rw [hshift2] at hin2
        obtain ⟨sp0, hsp0, rfl⟩ := List.mem_map.mp hin2
        have hshift1 := (scanB_shift post ce 0).1
        rw [Nat.zero_add] at hshift1
        have hinOld : (sp0.1 + ce, sp0.2.1, sp0.2.2 + ce) ∈ bracketSpans content := by
          unfold bracketSpans
          rw [hscanOld]
          refine List.mem_append.mpr (Or.inr (List.mem_cons.mpr (Or.inr ?_)))
          rw [hshift1]
          exact List.mem_map.mpr ⟨sp0, hsp0, rfl⟩
        obtain ⟨parsed2, hp2⟩ := parseSpans_some_elim _ _ _ _ hparseOld _ hinOld
        rw [pbc_param] at hp2
        obtain ⟨parsed3, hp3, _⟩ := Option.map_eq_some'.mp hp2
        exact ⟨parsed3, hp3⟩
  obtain ⟨props2, hprops2⟩ := parseSpans_total (bracketSpans newC) (lineOffsets newC) 0 htotal
  refine ⟨props2, hprops2, ?_⟩
  -- membership of the new property
  have hmemNew : (cs, p.key ++ ':' :: ':' :: nv,
      cs + 2 + utf8Len (p.key ++ ':' :: ':' :: nv)) ∈ bracketSpans newC := by
    unfold bracketSpans
    rw [hscanNew]
    exact List.mem_append.mpr (Or.inr (List.mem_cons_self _ _))
  have hpbcNew := pbc_anchor p.key nv c kt (lineNumberAt (lineOffsets newC) cs) cs
    (cs + 2 + utf8Len (p.key ++ ':' :: ':' :: nv)) hkeyshape hlet hkeyall hcolon hsub hempty
    v lnk hpv
  have hq := parseSpans_mem_intro (bracketSpans newC) (lineOffsets newC) 0 props2 hprops2
    cs (p.key ++ ':' :: ':' :: nv) (cs + 2 + utf8Len (p.key ++ ':' :: ':' :: nv))
    (mkProp p.key v (restoreCommas (trim nv)) (lineNumberAt (lineOffsets newC) cs) cs
      (cs + 2 + utf8Len (p.key ++ ':' :: ':' :: nv)) lnk false)
    hmemNew hpbcNew
  refine ⟨_, hq, rfl, ?_, ?_, rfl, rfl, rfl, rfl⟩
  · exact hpcs.symm
  · exact hrestore


/-- C6, counterexample: the claim states that after replace_property the
new content parses at the old position to a property whose value
reflects the new value.  With a new value containing a closing bracket
this fails: replacing the value of precio by the three characters
a, closing bracket, b produces content whose span at the old position
ends at the injected closing bracket, so the reparsed property has the
one-character Text value a, which does not reflect the new value. -/
theorem replace_property_roundtrip_counterexample :
    (parse ("El [precio::100] es bajo.").data).bind
        (fun ps => ps.head?.bind
          (fun p0 => replace_property ("El [precio::100] es bajo.").data p0 ("a]b").data)) =
      some (("El [precio::a]b] es bajo.").data) ∧
    parse (("El [precio::a]b] es bajo.").data) =
      some [⟨("precio").data, .Text ('a' :: []), ('a' :: []), 1, 3, 14, none, none, false⟩] ∧
    ('a' :: []) ≠ ("a]b").data := by
  exact ⟨by decide, by decide, by decide⟩

/-- C6, amended: for a property p parsed from the content and a new
value that contains no closing bracket, does not start with a colon,
contains no escaped comma or sentinel, and contains no key-separator
pair after its leading whitespace, parsing the output of
replace_property yields a property at byte offset p.char_start whose key
equals p.key, whose raw value is the trimmed new value, whose typed
value is exactly what the cascade assigns to the trimmed new value (the
hypothesis that the cascade succeeds excludes the datetime panic), and
which is standalone and visible; in particular the documented example
rewrites El [precio::100] es bajo. to El [precio::200] es bajo. -/
theorem replace_property_roundtrip :
    (∀ (content : Str) (props : List InlineProperty) (p : InlineProperty) (nv newC : Str)
      (v : PropertyValue) (lnk : Option Str),
      parse content = some props → p ∈ props →
      ']' ∉ nv → nv.head? ≠ some ':' →
      substEsc nv = nv → restoreCommas (trim nv) = trim nv →
      findPairs (nv.dropWhile isWsChar) 0 = [] →
      parse_value (trim nv) = some (v, lnk) →
      replace_property content p nv = some newC →
      ∃ props2, parse newC = some props2 ∧
        ∃ q ∈ props2, q.key = p.key ∧ q.char_start = p.char_start ∧
          q.raw_value = trim nv ∧ q.value = v ∧ q.linked_note = lnk ∧
          q.group_id = none ∧ q.hidden = false) ∧
    (parse ("El [precio::100] es bajo.").data =
      some [⟨("precio").data, .Number (.finite 100), ("100").data, 1, 3, 16, none, none, false⟩] ∧
     replace_property ("El [precio::100] es bajo.").data
       ⟨("precio").data, .Number (.finite 100), ("100").data, 1, 3, 16, none, none, false⟩
       ("200").data = some (("El [precio::200] es bajo.").data)) := by
  refine ⟨fun content props p nv newC v lnk h hp h1 h2 h3 h4 h5 h6 h7 =>
    replace_property_reparse content props p nv newC v lnk h hp h1 h2 h3 h4 h5 h6 h7,
    by decide, by decide⟩

/-- C6, witness for the amended round trip: replacing the value of
precio by 200 and reparsing yields a property with the same key at the
same offset whose value is the number 200. -/
theorem replace_property_roundtrip_witness :
    ∃ props2, parse (("El [precio::200] es bajo.").data) = some props2 ∧
      ∃ q ∈ props2, q.key = ("precio").data ∧ q.char_start = 3 ∧
        q.raw_value = trim (("200").data) ∧ q.value = .Number (.finite 200) ∧
        q.linked_note = none ∧ q.group_id = none ∧ q.hidden = false :=
  replace_property_roundtrip.1 (("El [precio::100] es bajo.").data)
    [⟨("precio").data, .Number (.finite 100), ("100").data, 1, 3, 16, none, none, false⟩]
    ⟨("precio").data, .Number (.finite 100), ("100").data, 1, 3, 16, none, none, false⟩
    (("200").data) (("El [precio::200] es bajo.").data) (.Number (.finite 200)) none
    (by decide) (by decide) (by decide) (by decide) (by decide) (by decide) (by decide)
    (by decide) (by decide)

end NotNative
